import Mathlib

/-! Checked C analyses prepass

A shallow embedding of `clang/lib/Sema/CheckedCAnalysesPrepass.cpp`: the two
visitor hooks of `PrepassHelper` (`VisitVarDecl`, `VisitDeclRefExpr`) and the
entry point `Sema::CheckedCAnalysesPrepass`, together with theorems about the
`VarUses` map they build.

Pointers are modelled by values: a `VarDecl` is the record of the attributes
the pass reads from the declaration, a `DeclRefExpr` is a node identity plus
the declaration it refers to.  The mutable members of `PrepassHelper`
(`Info.VarUses`, `InBoundsExpr`) are threaded explicitly through every call.
`Sema::NormalizeBounds` is an argument of the embedding, an arbitrary function
from declarations to trees.  The recursion of the traversal through the trees
it returns is therefore bounded by a fuel argument, the allowed nesting of
bounds traversals; `none` means that the fuel did not suffice.  For the
declarations of a well-formed function, whose nesting is well-founded, enough
fuel always exists (`functionNesting_of_rank`).
-/

namespace CheckedC

/-! ## Data model -/

/-- The attributes of a `VarDecl` read by the pass: its identity, and the
results of `isInvalidDecl()` and `hasBoundsExpr()`. -/
structure VarDecl where
  id : Nat
  isInvalidDecl : Bool
  hasBoundsExpr : Bool
deriving DecidableEq, Repr

/-- The declaration a `DeclRefExpr` refers to (`ValueDecl`): a variable, or
something that is not a variable (a function, an enumerator, ...). -/
inductive ValueDecl where
  | var (V : VarDecl)
  | nonVar (id : Nat)
deriving DecidableEq, Repr

/-- A reference node: its identity (source position) and `getDecl()`, which
may be null. -/
structure DeclRefExpr where
  id : Nat
  getDecl : Option ValueDecl
deriving DecidableEq, Repr

/-- The cast `dyn_cast_or_null<VarDecl>` applied to the result of `getDecl()`. -/
def dyn_cast_or_null_VarDecl : Option ValueDecl → Option VarDecl
  | some (ValueDecl.var V) => some V
  | some (ValueDecl.nonVar _) => none
  | none => none

/-- Modelled from the spec: the statement/expression tree (section 9, "a
tagged-variant node representation"): a reference node, a variable
declaration node with its non-bounds children (such as an initializer), and
every other node kind, each with its children in left-to-right order.  The
clang AST classes are not part of this file's source. -/
inductive Stmt where
  | declRefExpr (E : DeclRefExpr) (children : List Stmt)
  | varDecl (V : VarDecl) (children : List Stmt)
  | other (children : List Stmt)

/-- Modelled from the spec: the Reference Store (section 4.1), the type of
`PrepassInfo::VarUses`, declared in a header that is not part of this file's
source.  An association list from variables to references. -/
abbrev VarUsageTy := List (VarDecl × DeclRefExpr)

/-- Modelled from the spec: `lookup(variable)` of the Reference Store (section
4.1), the map being declared outside this file's source: the reference stored
for `V`, if any. -/
def VarUsageTy.find : VarUsageTy → VarDecl → Option DeclRefExpr
  | [], _ => none
  | (K, E) :: rest, V => if K = V then some E else VarUsageTy.find rest V

/-- Modelled from the spec: the map's `count(V)`, the test of `record` (section
4.1) for an existing entry: 1 when the map has an entry for `V`, else 0. -/
def VarUsageTy.count (m : VarUsageTy) (V : VarDecl) : Nat :=
  match m.find V with
  | some _ => 1
  | none => 0

/-- Modelled from the spec: the map's `operator[]` assignment `m[V] = E`, the
insertion of `record` (section 4.1): overwrites the entry of `V` when there is
one, adds an entry otherwise. -/
def VarUsageTy.assign : VarUsageTy → VarDecl → DeclRefExpr → VarUsageTy
  | [], V, E => [(V, E)]
  | (K, E0) :: rest, V, E =>
    if K = V then (K, E) :: rest else (K, E0) :: VarUsageTy.assign rest V E

/-- Modelled from the spec: the structure `PrepassInfo`, declared in a header
that is not part of this file's source: the data gathered by the pass, here
the Reference Store `VarUses`. -/
structure PrepassInfo where
  VarUses : VarUsageTy
deriving DecidableEq, Repr

/-- The node a hook was invoked on. -/
inductive Visit where
  | varDecl (V : VarDecl)
  | declRefExpr (E : DeclRefExpr)
deriving DecidableEq, Repr

/-- One hook invocation: the node, and the values of `InBoundsExpr` and
`Info.VarUses` at the moment the hook is entered. -/
structure Event where
  node : Visit
  InBoundsExpr : Bool
  VarUses : VarUsageTy
deriving DecidableEq, Repr

/-- The mutable state of a `PrepassHelper`: `Info` (held by reference in the
source) and the flag `InBoundsExpr`.  `Trace` is a ghost field that no code
reads: the chronological list of hook invocations, used only to state
properties about what was visited and when. -/
structure PrepassHelper where
  Info : PrepassInfo
  InBoundsExpr : Bool
  Trace : List Event
deriving DecidableEq, Repr

/-- Ghost: append the invocation of a hook on `n` to the trace. -/
def PrepassHelper.enter (self : PrepassHelper) (n : Visit) : PrepassHelper :=
  { self with Trace := self.Trace ++ [⟨n, self.InBoundsExpr, self.Info.VarUses⟩] }

/-! ## The visitor -/

/-- The hook `PrepassHelper::VisitDeclRefExpr` (lines 50-63).  Returns the
continue signal and the new state. -/
def VisitDeclRefExpr (E : DeclRefExpr) (self : PrepassHelper) : Bool × PrepassHelper :=
  let self := self.enter (Visit.declRefExpr E)
  match dyn_cast_or_null_VarDecl E.getDecl with
  | none => (true, self)
  | some V =>
    if V.isInvalidDecl then (true, self)
    else if !self.InBoundsExpr && !V.hasBoundsExpr then (true, self)
    else if self.Info.VarUses.count V ≠ 0 then (true, self)
    else (true, { self with Info := { self.Info with VarUses := self.Info.VarUses.assign V E } })

/-- The hook `PrepassHelper::VisitVarDecl` (lines 34-47), given the
collaborator `Sema::NormalizeBounds` and the traversal `TraverseStmt` of the
same visitor.  The result of `TraverseStmt(B)` is discarded, as in the source;
`none` only when the nested traversal gives `none`. -/
def VisitVarDecl (NormalizeBounds : VarDecl → Option Stmt)
    (TraverseStmt : Stmt → PrepassHelper → Option (Bool × PrepassHelper))
    (V : VarDecl) (self : PrepassHelper) : Option (Bool × PrepassHelper) :=
  let self := self.enter (Visit.varDecl V)
  if V.isInvalidDecl then some (true, self)
  else if V.hasBoundsExpr then
    match NormalizeBounds V with
    | some B =>
      match TraverseStmt B { self with InBoundsExpr := true } with
      | some (_, self1) => some (true, { self1 with InBoundsExpr := false })
      | none => none
    | none => some (true, self)
  else some (true, self)

mutual
/-- Modelled from the spec: the generic depth-first, left-to-right, pre-order
walk of `RecursiveASTVisitor` (section 4.2), which is not part of this file's
source.  At a declaration or reference node the hook runs first; when a hook
returns `false` the whole traversal stops with `false`, otherwise the children
are traversed in order.  The declaration hook is a parameter. -/
def traverse (visitVarDecl : VarDecl → PrepassHelper → Option (Bool × PrepassHelper)) :
    Stmt → PrepassHelper → Option (Bool × PrepassHelper)
  | Stmt.declRefExpr E children, self =>
    match VisitDeclRefExpr E self with
    | (true, self1) => traverseChildren visitVarDecl children self1
    | (false, self1) => some (false, self1)
  | Stmt.varDecl V children, self =>
    match visitVarDecl V self with
    | some (true, self1) => traverseChildren visitVarDecl children self1
    | some (false, self1) => some (false, self1)
    | none => none
  | Stmt.other children, self => traverseChildren visitVarDecl children self
/-- Modelled from the spec: the children of a node, left to right, stopping at
the first child whose traversal returns `false`. -/
def traverseChildren (visitVarDecl : VarDecl → PrepassHelper → Option (Bool × PrepassHelper)) :
    List Stmt → PrepassHelper → Option (Bool × PrepassHelper)
  | [], self => some (true, self)
  | S :: rest, self =>
    match traverse visitVarDecl S self with
    | some (true, self1) => traverseChildren visitVarDecl rest self1
    | some (false, self1) => some (false, self1)
    | none => none
end

/-- The method `TraverseStmt` of `PrepassHelper`: the generic walk with the
two hooks of `PrepassHelper`.  `fuel` bounds the nesting depth of bounds
traversals started by `VisitVarDecl`. -/
def TraverseStmt (NormalizeBounds : VarDecl → Option Stmt) :
    Nat → Stmt → PrepassHelper → Option (Bool × PrepassHelper)
  | 0 => fun _ _ => none
  | fuel + 1 => traverse (VisitVarDecl NormalizeBounds (TraverseStmt NormalizeBounds fuel))

/-- The loop of lines 71-74: `Prepass.VisitVarDecl(Param)` for each parameter
in order; the value returned by the hook is ignored. -/
def visitParams (NormalizeBounds : VarDecl → Option Stmt) (fuel : Nat) :
    List VarDecl → PrepassHelper → Option PrepassHelper
  | [], self => some self
  | Param :: rest, self =>
    match VisitVarDecl NormalizeBounds (TraverseStmt NormalizeBounds fuel) Param self with
    | some (_, self1) => visitParams NormalizeBounds fuel rest self1
    | none => none

/-- The body of `Sema::CheckedCAnalysesPrepass` (lines 68-76), returning the
final state of the helper: a fresh `PrepassHelper` on `Info`, the parameter
loop, then `Prepass.TraverseStmt(Body)`, whose result is discarded. -/
def runPrepass (NormalizeBounds : VarDecl → Option Stmt) (fuel : Nat)
    (Info : PrepassInfo) (params : List VarDecl) (Body : Stmt) : Option PrepassHelper :=
  match visitParams NormalizeBounds fuel params ⟨Info, false, []⟩ with
  | some self1 =>
    match TraverseStmt NormalizeBounds fuel Body self1 with
    | some (_, self2) => some self2
    | none => none
  | none => none

/-- The entry point `Sema::CheckedCAnalysesPrepass` (lines 68-76): `Info` is
an in-out argument, so the function returns its final value. -/
def CheckedCAnalysesPrepass (NormalizeBounds : VarDecl → Option Stmt) (fuel : Nat)
    (Info : PrepassInfo) (params : List VarDecl) (Body : Stmt) : Option PrepassInfo :=
  match runPrepass NormalizeBounds fuel Info params Body with
  | some self => some self.Info
  | none => none

/-! ## Auxiliary definitions used to state and prove the properties

None of the following is code of the pass.  `Step`, `record`, `replay` and
`steps` describe a run of the visitor as the list of its hook invocations;
`visitOrder` and `Stmt.nodes` are the orders and node sets the properties
speak about. -/

/-- A hook invocation without the store: the node and the value of
`InBoundsExpr` when the hook is entered. -/
abbrev Step := Visit × Bool

/-- The effect of one hook invocation on the store: a declaration hook does
not touch it, a reference hook changes it as `VisitDeclRefExpr` does. -/
def record (s : VarUsageTy) : Step → VarUsageTy
  | (Visit.varDecl _, _) => s
  | (Visit.declRefExpr E, f) => (VisitDeclRefExpr E ⟨⟨s⟩, f, []⟩).2.Info.VarUses

/-- The store after a list of hook invocations. -/
def replay (s : VarUsageTy) (l : List Step) : VarUsageTy := l.foldl record s

/-- The trace events of a list of hook invocations started on the store `s`. -/
def annot : VarUsageTy → List Step → List Event
  | _, [] => []
  | s, x :: xs => ⟨x.1, x.2, s⟩ :: annot (record s x) xs

/-- The state reached from `self` by the hook invocations `l`, ending with the
flag `f`. -/
def PrepassHelper.after (self : PrepassHelper) (l : List Step) (f : Bool) : PrepassHelper :=
  ⟨⟨replay self.Info.VarUses l⟩, f, self.Trace ++ annot self.Info.VarUses l⟩

/-- The result of a traversal whose hook invocations and final flag are given. -/
def PrepassHelper.lift (self : PrepassHelper) :
    Option (List Step × Bool) → Option (Bool × PrepassHelper)
  | some (l, f) => some (true, self.after l f)
  | none => none

/-- The hook invocations of `VisitVarDecl` on `V` entered with flag `f`, and
the flag it leaves, given those of the nested traversal. -/
def declSteps (NormalizeBounds : VarDecl → Option Stmt)
    (inner : Stmt → Bool → Option (List Step × Bool)) (V : VarDecl) (f : Bool) :
    Option (List Step × Bool) :=
  if V.isInvalidDecl then some ([(Visit.varDecl V, f)], f)
  else if V.hasBoundsExpr then
    match NormalizeBounds V with
    | some B =>
      match inner B true with
      | some (l, _) => some ((Visit.varDecl V, f) :: l, false)
      | none => none
    | none => some ([(Visit.varDecl V, f)], f)
  else some ([(Visit.varDecl V, f)], f)

mutual
/-- The hook invocations of the generic walk of a tree entered with flag `f`,
and the flag it leaves. -/
def stepsStmt (ds : VarDecl → Bool → Option (List Step × Bool)) :
    Stmt → Bool → Option (List Step × Bool)
  | Stmt.declRefExpr E children, f =>
    match stepsChildren ds children f with
    | some (l, f1) => some ((Visit.declRefExpr E, f) :: l, f1)
    | none => none
  | Stmt.varDecl V children, f =>
    match ds V f with
    | some (l1, f1) =>
      match stepsChildren ds children f1 with
      | some (l2, f2) => some (l1 ++ l2, f2)
      | none => none
    | none => none
  | Stmt.other children, f => stepsChildren ds children f
/-- The hook invocations of the walk of a list of children. -/
def stepsChildren (ds : VarDecl → Bool → Option (List Step × Bool)) :
    List Stmt → Bool → Option (List Step × Bool)
  | [], f => some ([], f)
  | S :: rest, f =>
    match stepsStmt ds S f with
    | some (l1, f1) =>
      match stepsChildren ds rest f1 with
      | some (l2, f2) => some (l1 ++ l2, f2)
      | none => none
    | none => none
end

/-- The hook invocations of `TraverseStmt` with the given fuel. -/
def steps (NormalizeBounds : VarDecl → Option Stmt) :
    Nat → Stmt → Bool → Option (List Step × Bool)
  | 0 => fun _ _ => none
  | fuel + 1 => stepsStmt (declSteps NormalizeBounds (steps NormalizeBounds fuel))

/-- The hook invocations of the parameter loop. -/
def paramSteps (NormalizeBounds : VarDecl → Option Stmt) (fuel : Nat) :
    List VarDecl → Bool → Option (List Step × Bool)
  | [], f => some ([], f)
  | Param :: rest, f =>
    match declSteps NormalizeBounds (steps NormalizeBounds fuel) Param f with
    | some (l1, f1) =>
      match paramSteps NormalizeBounds fuel rest f1 with
      | some (l2, f2) => some (l1 ++ l2, f2)
      | none => none
    | none => none

/-- The hook invocations of the whole pass. -/
def passSteps (NormalizeBounds : VarDecl → Option Stmt) (fuel : Nat)
    (params : List VarDecl) (Body : Stmt) : Option (List Step × Bool) :=
  match paramSteps NormalizeBounds fuel params false with
  | some (l1, f1) =>
    match steps NormalizeBounds fuel Body f1 with
    | some (l2, f2) => some (l1 ++ l2, f2)
    | none => none
  | none => none

/-- The reference node `E` resolves to the variable `V`. -/
def DeclRefExpr.resolvesTo (E : DeclRefExpr) (V : VarDecl) : Bool :=
  decide (dyn_cast_or_null_VarDecl E.getDecl = some V)

/-- The reference that a hook invocation offers for `V`: the node of a
reference hook that resolves to `V`, when `V` is not invalid and the flag is
set or `V` has a bounds expression. -/
def offers (V : VarDecl) : Step → Option DeclRefExpr
  | (Visit.declRefExpr E, f) =>
    if E.resolvesTo V && !V.isInvalidDecl && (f || V.hasBoundsExpr) then some E else none
  | (Visit.varDecl _, _) => none

/-- The reference node of a hook invocation, if it is one on a reference. -/
def Visit.ref : Visit → Option DeclRefExpr
  | Visit.declRefExpr E => some E
  | Visit.varDecl _ => none

/-- The hook invocation recorded by a trace event. -/
def Event.step (ev : Event) : Step := (ev.node, ev.InBoundsExpr)

mutual
/-- The declaration and reference nodes of a tree itself (bounds trees not
included), in depth-first left-to-right pre-order. -/
def Stmt.nodes : Stmt → List Visit
  | Stmt.declRefExpr E children => Visit.declRefExpr E :: Stmt.nodesList children
  | Stmt.varDecl V children => Visit.varDecl V :: Stmt.nodesList children
  | Stmt.other children => Stmt.nodesList children
/-- The declaration and reference nodes of a list of trees. -/
def Stmt.nodesList : List Stmt → List Visit
  | [] => []
  | S :: rest => S.nodes ++ Stmt.nodesList rest
end

/-- The reference nodes of a tree itself, in depth-first left-to-right order. -/
def Stmt.refs (S : Stmt) : List DeclRefExpr := S.nodes.filterMap Visit.ref

/-- The tree has no declaration node. -/
def Stmt.declFree (S : Stmt) : Bool := S.nodes.all (fun n => (Visit.ref n).isSome)

/-- The reference nodes visited for the bounds of `V`: those of its normalized
bounds tree when `V` is not invalid, carries a bounds expression and
normalization gives a tree; none otherwise. -/
def boundsOrder (NormalizeBounds : VarDecl → Option Stmt)
    (inner : Stmt → Option (List DeclRefExpr)) (V : VarDecl) : Option (List DeclRefExpr) :=
  if V.isInvalidDecl then some []
  else if V.hasBoundsExpr then
    match NormalizeBounds V with
    | some B => inner B
    | none => some []
  else some []

mutual
/-- The reference nodes of a tree in depth-first left-to-right order, the
bounds tree of a declaration being traversed when the declaration is visited
(before its children). -/
def orderStmt (bounds : VarDecl → Option (List DeclRefExpr)) : Stmt → Option (List DeclRefExpr)
  | Stmt.declRefExpr E children =>
    match orderChildren bounds children with
    | some l => some (E :: l)
    | none => none
  | Stmt.varDecl V children =>
    match bounds V with
    | some l1 =>
      match orderChildren bounds children with
      | some l2 => some (l1 ++ l2)
      | none => none
    | none => none
  | Stmt.other children => orderChildren bounds children
/-- The reference nodes of a list of trees, left to right. -/
def orderChildren (bounds : VarDecl → Option (List DeclRefExpr)) :
    List Stmt → Option (List DeclRefExpr)
  | [] => some []
  | S :: rest =>
    match orderStmt bounds S with
    | some l1 =>
      match orderChildren bounds rest with
      | some l2 => some (l1 ++ l2)
      | none => none
    | none => none
end

/-- The visit order of the reference nodes of a tree; `fuel` bounds the
nesting of bounds trees. -/
def visitOrderStmt (NormalizeBounds : VarDecl → Option Stmt) : Nat → Stmt → Option (List DeclRefExpr)
  | 0 => fun _ => none
  | fuel + 1 => orderStmt (boundsOrder NormalizeBounds (visitOrderStmt NormalizeBounds fuel))

/-- The visit order of the parameter loop: each parameter in declaration
order, each followed by the traversal of its normalized bounds tree. -/
def visitOrderParams (NormalizeBounds : VarDecl → Option Stmt) (fuel : Nat) :
    List VarDecl → Option (List DeclRefExpr)
  | [] => some []
  | Param :: rest =>
    match boundsOrder NormalizeBounds (visitOrderStmt NormalizeBounds fuel) Param with
    | some l1 =>
      match visitOrderParams NormalizeBounds fuel rest with
      | some l2 => some (l1 ++ l2)
      | none => none
    | none => none

/-- The visit order of the pass over the reference nodes: the parameters,
then the body. -/
def visitOrder (NormalizeBounds : VarDecl → Option Stmt) (fuel : Nat)
    (params : List VarDecl) (Body : Stmt) : Option (List DeclRefExpr) :=
  match visitOrderParams NormalizeBounds fuel params with
  | some l1 =>
    match visitOrderStmt NormalizeBounds fuel Body with
    | some l2 => some (l1 ++ l2)
    | none => none
  | none => none

/-- The reference nodes of a list of hook invocations, in order. -/
def stepRefs (l : List Step) : List DeclRefExpr := l.filterMap (fun x => Visit.ref x.1)

/-- The bounds traversal started by `VisitVarDecl` on `V` stays within the
nesting allowed by `inner`: nothing to check unless `V` is not invalid, carries
a bounds expression and normalization gives a tree. -/
def nestDecl (NormalizeBounds : VarDecl → Option Stmt) (inner : Stmt → Bool) (V : VarDecl) : Bool :=
  if V.isInvalidDecl then true
  else if V.hasBoundsExpr then
    match NormalizeBounds V with
    | some B => inner B
    | none => true
  else true

mutual
/-- Every declaration node of the tree satisfies `nd`. -/
def nestStmt (nd : VarDecl → Bool) : Stmt → Bool
  | Stmt.declRefExpr _ children => nestChildren nd children
  | Stmt.varDecl V children => nd V && nestChildren nd children
  | Stmt.other children => nestChildren nd children
/-- Every declaration node of the trees satisfies `nd`. -/
def nestChildren (nd : VarDecl → Bool) : List Stmt → Bool
  | [] => true
  | S :: rest => nestStmt nd S && nestChildren nd rest
end

/-- The nesting of bounds traversals below the tree is less than `depth`: the
declaration nodes of the tree start bounds traversals of trees whose own
nesting is less than `depth - 1`.  No tree has nesting less than 0. -/
def nestingBelow (NormalizeBounds : VarDecl → Option Stmt) : Nat → Stmt → Bool
  | 0 => fun _ => false
  | depth + 1 => nestStmt (nestDecl NormalizeBounds (nestingBelow NormalizeBounds depth))

/-- The whole function has bounds nesting at most `depth`: the bounds
traversals of the parameters and the body. -/
def functionNesting (NormalizeBounds : VarDecl → Option Stmt) (depth : Nat)
    (params : List VarDecl) (Body : Stmt) : Bool :=
  params.all (nestDecl NormalizeBounds (nestingBelow NormalizeBounds depth)) &&
    nestingBelow NormalizeBounds depth Body

/-- The trace event is the invocation of the reference hook on a node that
resolves to `V`. -/
def Event.isRefTo (ev : Event) (V : VarDecl) : Bool :=
  match ev.node with
  | Visit.declRefExpr E => E.resolvesTo V
  | Visit.varDecl _ => false

/-! ## The function of the scenarios

The function `f(int len, char *p : count(len))` of the scenarios, and concrete
inputs on which the theorems are instantiated. -/

/-- The parameter `int len`: valid, no bounds expression. -/
def exLen : VarDecl := ⟨1, false, false⟩

/-- The parameter `char *p : count(len)`: valid, with a bounds expression. -/
def exP : VarDecl := ⟨2, false, true⟩

/-- The reference to `len` inside the bounds of `p`. -/
def exRefLen : DeclRefExpr := ⟨11, some (ValueDecl.var exLen)⟩

/-- A reference to `p` inside the normalized bounds of `p`. -/
def exRefP : DeclRefExpr := ⟨10, some (ValueDecl.var exP)⟩

/-- The bounds `count(len)` of `p` in range form, `bounds(p, p + len)`: the
range node with the lower bound `p` and the upper bound `p + len`. -/
def exRangeTree : Stmt :=
  Stmt.other [Stmt.declRefExpr exRefP [],
    Stmt.other [Stmt.declRefExpr ⟨12, some (ValueDecl.var exP)⟩ [], Stmt.declRefExpr exRefLen []]]

/-- A normalizer that gives `p` the range form of its bounds. -/
def exNormalizeRange (V : VarDecl) : Option Stmt :=
  if V = exP then some exRangeTree else none

/-- A normalized tree for the bounds of `p` that mentions `len` only. -/
def exCountTree : Stmt := Stmt.other [Stmt.declRefExpr exRefLen []]

/-- A normalizer that gives `p` a tree mentioning `len` only. -/
def exNormalizeCount (V : VarDecl) : Option Stmt :=
  if V = exP then some exCountTree else none

/-- The call `use(p)`: a call node whose children are the reference `fn` to
the function `use` and the argument `arg`, a reference to `p`. -/
def useCall (p : VarDecl) (ids : Nat × Nat) : Stmt :=
  Stmt.other [Stmt.declRefExpr ⟨ids.1, some (ValueDecl.nonVar 0)⟩ [],
    Stmt.declRefExpr ⟨ids.2, some (ValueDecl.var p)⟩ []]

/-- The body `{ use(p); ...; use(p); }`, one call for each pair of node
identities. -/
def useBody (p : VarDecl) (calls : List (Nat × Nat)) : Stmt :=
  Stmt.other (calls.map (useCall p))

/-- An empty body. -/
def exEmptyBody : Stmt := Stmt.other []

/-- A reference to `p` stored before the pass starts. -/
def exOldRef : DeclRefExpr := ⟨99, some (ValueDecl.var exP)⟩

/-- A parameter marked invalid that carries a bounds expression. -/
def exInvalid : VarDecl := ⟨3, true, true⟩

/-- A normalizer that would give the invalid parameter a tree referring to
`len` and to the parameter itself. -/
def exNormalizeInvalid (V : VarDecl) : Option Stmt :=
  if V = exInvalid then
    some (Stmt.other [Stmt.declRefExpr ⟨30, some (ValueDecl.var exInvalid)⟩ [],
      Stmt.declRefExpr ⟨31, some (ValueDecl.var exLen)⟩ []])
  else none

/-- A valid variable with a bounds expression, declared inside the normalized
bounds of `p`. -/
def exInner : VarDecl := ⟨4, false, true⟩

/-- A normalized tree for the bounds of `p` that holds the declaration of
`exInner` followed by the reference to `len`. -/
def exNestedTree : Stmt :=
  Stmt.other [Stmt.varDecl exInner [], Stmt.declRefExpr exRefLen []]

/-- A normalizer that gives `p` the tree `exNestedTree` and `exInner` an empty
tree. -/
def exNormalizeNested (V : VarDecl) : Option Stmt :=
  if V = exP then some exNestedTree
  else if V = exInner then some (Stmt.other [])
  else none

/-- A second valid parameter with a bounds expression, `char *r : count(len)`. -/
def exR : VarDecl := ⟨6, false, true⟩

/-- The reference to `len` inside the bounds of `r`. -/
def exRefLenR : DeclRefExpr := ⟨13, some (ValueDecl.var exLen)⟩

/-- A normalizer that gives `p` and `r` each a tree with its own reference to
`len`. -/
def exNormalizeTwo (V : VarDecl) : Option Stmt :=
  if V = exP then some exCountTree
  else if V = exR then some (Stmt.other [Stmt.declRefExpr exRefLenR []])
  else none

/-- A rank for `exNormalizeNested`: `p` above the declaration nested in its
bounds. -/
def exRank (V : VarDecl) : Nat := if V = exP then 1 else 0

/-! ## Lemmas -/

/-! ### A run of the visitor is the replay of its hook invocations -/

/-- Simultaneous induction over trees and lists of trees. -/
theorem Stmt.both {P : Stmt → Prop} {Q : List Stmt → Prop}
    (h1 : ∀ E cs, Q cs → P (Stmt.declRefExpr E cs))
    (h2 : ∀ V cs, Q cs → P (Stmt.varDecl V cs))
    (h3 : ∀ cs, Q cs → P (Stmt.other cs))
    (hnil : Q [])
    (hcons : ∀ S rest, P S → Q rest → Q (S :: rest)) :
    (∀ t, P t) ∧ (∀ l, Q l) :=
  ⟨fun t => @Stmt.rec P Q h1 h2 h3 hnil hcons t, fun l => @Stmt.rec_1 P Q h1 h2 h3 hnil hcons l⟩

theorem replay_append (s : VarUsageTy) (l1 l2 : List Step) :
    replay s (l1 ++ l2) = replay (replay s l1) l2 := by
  simp [replay, List.foldl_append]

theorem annot_append (s : VarUsageTy) (l1 l2 : List Step) :
    annot s (l1 ++ l2) = annot s l1 ++ annot (replay s l1) l2 := by
  induction l1 generalizing s with
  | nil => simp [annot, replay]
  | cons x xs ih => simp [annot, replay, ih]

theorem after_after (st : PrepassHelper) (l1 l2 : List Step) (f1 f2 : Bool) :
    (st.after l1 f1).after l2 f2 = st.after (l1 ++ l2) f2 := by
  simp [PrepassHelper.after, replay_append, annot_append, List.append_assoc]

theorem after_nil (st : PrepassHelper) : st.after [] st.InBoundsExpr = st := by
  simp [PrepassHelper.after, replay, annot]

theorem VisitDeclRefExpr_eq (E : DeclRefExpr) (st : PrepassHelper) :
    VisitDeclRefExpr E st = (true, st.after [(Visit.declRefExpr E, st.InBoundsExpr)] st.InBoundsExpr) := by
  simp only [VisitDeclRefExpr, PrepassHelper.after, PrepassHelper.enter, replay, annot, record,
    List.foldl_cons, List.foldl_nil]
  cases dyn_cast_or_null_VarDecl E.getDecl with
  | none => simp
  | some V =>
    simp only []
    split_ifs <;> simp_all

@[simp] theorem after_InBoundsExpr (st : PrepassHelper) (l : List Step) (f : Bool) :
    (st.after l f).InBoundsExpr = f := rfl

theorem enter_varDecl (st : PrepassHelper) (V : VarDecl) :
    st.enter (Visit.varDecl V) = st.after [(Visit.varDecl V, st.InBoundsExpr)] st.InBoundsExpr := by
  simp [PrepassHelper.enter, PrepassHelper.after, replay, annot, record]

theorem VisitVarDecl_eq (N : VarDecl → Option Stmt)
    (T : Stmt → PrepassHelper → Option (Bool × PrepassHelper))
    (inner : Stmt → Bool → Option (List Step × Bool))
    (h : ∀ t st, T t st = st.lift (inner t st.InBoundsExpr))
    (V : VarDecl) (st : PrepassHelper) :
    VisitVarDecl N T V st = st.lift (declSteps N inner V st.InBoundsExpr) := by
  have hset : ∀ b : Bool, ({ st.enter (Visit.varDecl V) with InBoundsExpr := b } : PrepassHelper) =
      st.after [(Visit.varDecl V, st.InBoundsExpr)] b := by
    intro b; simp [PrepassHelper.enter, PrepassHelper.after, replay, annot, record]
  unfold VisitVarDecl declSteps
  simp only [hset, h, after_InBoundsExpr]
  rw [enter_varDecl]
  by_cases hi : V.isInvalidDecl = true
  · simp [hi, PrepassHelper.lift]
  · by_cases hb : V.hasBoundsExpr = true
    · simp only [hi, hb, if_true, if_false]
      cases hN : N V with
      | none => simp [PrepassHelper.lift]
      | some B =>
        simp only []
        cases hin : inner B true with
        | none => simp [PrepassHelper.lift]
        | some r =>
          obtain ⟨l, f1⟩ := r
          simp [PrepassHelper.lift, PrepassHelper.after, replay_append, annot_append, replay, annot, record]
    · simp [hi, hb, PrepassHelper.lift]

theorem traverse_eq (vvd : VarDecl → PrepassHelper → Option (Bool × PrepassHelper))
    (ds : VarDecl → Bool → Option (List Step × Bool))
    (h : ∀ V st, vvd V st = st.lift (ds V st.InBoundsExpr)) :
    (∀ t st, traverse vvd t st = st.lift (stepsStmt ds t st.InBoundsExpr)) ∧
    (∀ l st, traverseChildren vvd l st = st.lift (stepsChildren ds l st.InBoundsExpr)) := by
  apply Stmt.both
  · intro E cs ih st
    rw [traverse, stepsStmt, VisitDeclRefExpr_eq]
    simp only [ih, after_InBoundsExpr]
    cases stepsChildren ds cs st.InBoundsExpr with
    | none => simp [PrepassHelper.lift]
    | some r => obtain ⟨l, f1⟩ := r; simp [PrepassHelper.lift, after_after]
  · intro V cs ih st
    rw [traverse, stepsStmt, h]
    cases ds V st.InBoundsExpr with
    | none => simp [PrepassHelper.lift]
    | some r =>
      obtain ⟨l1, f1⟩ := r
      simp only [PrepassHelper.lift, ih, after_InBoundsExpr]
      cases stepsChildren ds cs f1 with
      | none => simp [PrepassHelper.lift]
      | some r2 => obtain ⟨l2, f2⟩ := r2; simp [PrepassHelper.lift, after_after]
  · intro cs ih st
    rw [traverse, stepsStmt, ih]
  · intro st
    rw [traverseChildren, stepsChildren]
    simp [PrepassHelper.lift, after_nil]
  · intro S rest ihS ihrest st
    rw [traverseChildren, stepsChildren, ihS]
    cases stepsStmt ds S st.InBoundsExpr with
    | none => simp [PrepassHelper.lift]
    | some r =>
      obtain ⟨l1, f1⟩ := r
      simp only [PrepassHelper.lift, ihrest, after_InBoundsExpr]
      cases stepsChildren ds rest f1 with
      | none => simp [PrepassHelper.lift]
      | some r2 => obtain ⟨l2, f2⟩ := r2; simp [PrepassHelper.lift, after_after]

theorem TraverseStmt_eq (N : VarDecl → Option Stmt) (fuel : Nat) :
    ∀ t st, TraverseStmt N fuel t st = st.lift (steps N fuel t st.InBoundsExpr) := by
  induction fuel with
  | zero => intro t st; simp [TraverseStmt, steps, PrepassHelper.lift]
  | succ n ih =>
    intro t st
    rw [TraverseStmt, steps]
    exact (traverse_eq _ _ (VisitVarDecl_eq N _ _ ih)).1 t st

/-! ### The store after a list of hook invocations -/

theorem find_assign (m : VarUsageTy) (V : VarDecl) (E : DeclRefExpr) (W : VarDecl) :
    (m.assign V E).find W = if V = W then some E else m.find W := by
  induction m with
  | nil => simp [VarUsageTy.assign, VarUsageTy.find]
  | cons kv rest ih =>
    obtain ⟨K, E0⟩ := kv
    by_cases hK : K = V
    · subst hK
      by_cases hW : K = W <;> simp [VarUsageTy.assign, VarUsageTy.find, hW]
    · by_cases hW : K = W
      · subst hW
        have : ¬ V = K := fun h => hK h.symm
        simp [VarUsageTy.assign, VarUsageTy.find, hK, this]
      · simp [VarUsageTy.assign, VarUsageTy.find, hK, hW, ih]

theorem count_ne_zero (m : VarUsageTy) (V : VarDecl) :
    m.count V ≠ 0 ↔ m.find V ≠ none := by
  unfold VarUsageTy.count
  cases m.find V <;> simp

theorem record_declRefExpr (s : VarUsageTy) (E : DeclRefExpr) (f : Bool) :
    record s (Visit.declRefExpr E, f) =
      match dyn_cast_or_null_VarDecl E.getDecl with
      | none => s
      | some V =>
        if V.isInvalidDecl then s
        else if !f && !V.hasBoundsExpr then s
        else if s.count V ≠ 0 then s
        else s.assign V E := by
  simp only [record, VisitDeclRefExpr, PrepassHelper.enter]
  cases dyn_cast_or_null_VarDecl E.getDecl with
  | none => rfl
  | some V => simp only []; split_ifs <;> rfl

theorem find_record (s : VarUsageTy) (x : Step) (W : VarDecl) :
    (record s x).find W = (s.find W).or (offers W x) := by
  obtain ⟨n, f⟩ := x
  cases n with
  | varDecl V => cases h : s.find W <;> simp [record, offers, h]
  | declRefExpr E =>
    rw [record_declRefExpr]
    simp only [offers, DeclRefExpr.resolvesTo]
    split
    · rename_i hd
      cases h : s.find W <;> simp [h, hd]
    · rename_i V hd
      by_cases hi : V.isInvalidDecl = true
      · by_cases hVW : V = W
        · subst hVW; cases h : s.find V <;> simp [hi, h]
        · cases h : s.find W <;> simp [hi, h, hd, hVW]
      · by_cases hrel : (!f && !V.hasBoundsExpr) = true
        · by_cases hVW : V = W
          · subst hVW
            have : (f || V.hasBoundsExpr) = false := by
              cases f <;> cases hh : V.hasBoundsExpr <;> simp_all
            cases h : s.find V <;> simp [hi, hrel, h, this]
          · cases h : s.find W <;> simp [hi, hrel, h, hd, hVW]
        · have hor : (f || V.hasBoundsExpr) = true := by
            cases f <;> cases hh : V.hasBoundsExpr <;> simp_all
          by_cases hc : VarUsageTy.count s V ≠ 0
          · have hs := (count_ne_zero s V).1 hc
            by_cases hVW : V = W
            · subst hVW
              cases h : s.find V with
              | none => exact absurd h hs
              | some e => simp [hi, hrel, hc, h]
            · cases h : s.find W <;> simp [hi, hrel, hc, h, hd, hVW]
          · have hs : s.find V = none := by
              by_contra hne; exact hc ((count_ne_zero s V).2 hne)
            by_cases hVW : V = W
            · subst hVW
              simp [hi, hrel, hc, hs, find_assign, hor, hd]
            · cases h : s.find W <;> simp [hi, hrel, hc, h, hd, hVW, find_assign]

theorem find_replay (s : VarUsageTy) (l : List Step) (W : VarDecl) :
    (replay s l).find W = (s.find W).or (l.findSome? (offers W)) := by
  induction l generalizing s with
  | nil => cases h : s.find W <;> simp [replay, h]
  | cons x xs ih =>
    have : replay s (x :: xs) = replay (record s x) xs := rfl
    rw [this, ih, find_record]
    cases s.find W <;> cases h : offers W x <;> simp [List.findSome?, h]

/-! ### The parameter loop and the entry point -/

theorem visitParams_eq (N : VarDecl → Option Stmt) (fuel : Nat) (ps : List VarDecl)
    (st : PrepassHelper) :
    visitParams N fuel ps st =
      match paramSteps N fuel ps st.InBoundsExpr with
      | some (l, f) => some (st.after l f)
      | none => none := by
  induction ps generalizing st with
  | nil => simp [visitParams, paramSteps, after_nil]
  | cons P rest ih =>
    rw [visitParams, paramSteps, VisitVarDecl_eq N _ _ (TraverseStmt_eq N fuel)]
    cases declSteps N (steps N fuel) P st.InBoundsExpr with
    | none => simp [PrepassHelper.lift]
    | some r =>
      obtain ⟨l1, f1⟩ := r
      simp only [PrepassHelper.lift, ih, after_InBoundsExpr]
      cases paramSteps N fuel rest f1 with
      | none => simp
      | some r2 => obtain ⟨l2, f2⟩ := r2; simp [after_after]

theorem runPrepass_eq (N : VarDecl → Option Stmt) (fuel : Nat) (Info : PrepassInfo)
    (params : List VarDecl) (Body : Stmt) :
    runPrepass N fuel Info params Body =
      match passSteps N fuel params Body with
      | some (l, f) => some ((⟨Info, false, []⟩ : PrepassHelper).after l f)
      | none => none := by
  rw [runPrepass, passSteps, visitParams_eq]
  cases paramSteps N fuel params false with
  | none => simp
  | some r =>
    obtain ⟨l1, f1⟩ := r
    simp only [TraverseStmt_eq, after_InBoundsExpr]
    cases steps N fuel Body f1 with
    | none => simp [PrepassHelper.lift]
    | some r2 => obtain ⟨l2, f2⟩ := r2; simp [PrepassHelper.lift, after_after]

theorem runPrepass_some (N : VarDecl → Option Stmt) (fuel : Nat) (Info : PrepassInfo)
    (params : List VarDecl) (Body : Stmt) (final : PrepassHelper)
    (h : runPrepass N fuel Info params Body = some final) :
    ∃ l f, passSteps N fuel params Body = some (l, f) ∧
      final = (⟨Info, false, []⟩ : PrepassHelper).after l f := by
  rw [runPrepass_eq] at h
  cases hp : passSteps N fuel params Body with
  | none => simp [hp] at h
  | some r =>
    obtain ⟨l, f⟩ := r
    simp only [hp, Option.some.injEq] at h
    exact ⟨l, f, rfl, h.symm⟩

theorem annot_step (s : VarUsageTy) (l : List Step) :
    (annot s l).map Event.step = l := by
  induction l generalizing s with
  | nil => rfl
  | cons x xs ih => simp [annot, Event.step, ih]

theorem mem_annot (s : VarUsageTy) (l : List Step) (ev : Event) (h : ev ∈ annot s l) :
    ∃ l1 l2, l = l1 ++ ev.step :: l2 ∧ ev.VarUses = replay s l1 := by
  induction l generalizing s with
  | nil => simp [annot] at h
  | cons x xs ih =>
    simp only [annot, List.mem_cons] at h
    rcases h with h | h
    · subst h
      exact ⟨[], xs, by simp [Event.step], rfl⟩
    · obtain ⟨l1, l2, h1, h2⟩ := ih (record s x) h
      exact ⟨x :: l1, l2, by simp [h1], by rw [h2]; rfl⟩

theorem find_replay_mono (s : VarUsageTy) (l : List Step) (W : VarDecl) (E : DeclRefExpr)
    (h : s.find W = some E) : (replay s l).find W = some E := by
  rw [find_replay, h]; rfl

/-! ### The visit order of the reference nodes -/

theorem stepRefs_append (l1 l2 : List Step) : stepRefs (l1 ++ l2) = stepRefs l1 ++ stepRefs l2 := by
  simp [stepRefs, List.filterMap_append]

theorem boundsOrder_eq (N : VarDecl → Option Stmt)
    (inner : Stmt → Bool → Option (List Step × Bool)) (io : Stmt → Option (List DeclRefExpr))
    (h : ∀ t f, io t = (inner t f).map (fun r => stepRefs r.1)) (V : VarDecl) (f : Bool) :
    boundsOrder N io V = (declSteps N inner V f).map (fun r => stepRefs r.1) := by
  unfold boundsOrder declSteps
  by_cases hi : V.isInvalidDecl = true
  · simp [hi, stepRefs, Visit.ref]
  · by_cases hb : V.hasBoundsExpr = true
    · simp only [hi, hb, if_true, if_false]
      cases N V with
      | none => simp [stepRefs, Visit.ref]
      | some B =>
        simp only [h B true]
        cases inner B true with
        | none => simp
        | some r => simp [stepRefs, Visit.ref]
    · simp [hi, hb, stepRefs, Visit.ref]

theorem orderStmt_eq (bo : VarDecl → Option (List DeclRefExpr))
    (ds : VarDecl → Bool → Option (List Step × Bool))
    (h : ∀ V f, bo V = (ds V f).map (fun r => stepRefs r.1)) :
    (∀ t f, orderStmt bo t = (stepsStmt ds t f).map (fun r => stepRefs r.1)) ∧
    (∀ l f, orderChildren bo l = (stepsChildren ds l f).map (fun r => stepRefs r.1)) := by
  apply Stmt.both
  · intro E cs ih f
    rw [orderStmt, stepsStmt, ih f]
    cases stepsChildren ds cs f with
    | none => simp
    | some r => simp [stepRefs, Visit.ref]
  · intro V cs ih f
    rw [orderStmt, stepsStmt, h V f]
    cases ds V f with
    | none => simp
    | some r =>
      simp only [Option.map_some', ih r.2]
      cases stepsChildren ds cs r.2 with
      | none => simp
      | some r2 => simp [stepRefs_append]
  · intro cs ih f
    rw [orderStmt, stepsStmt, ih f]
  · intro f
    rw [orderChildren, stepsChildren]; simp [stepRefs]
  · intro S rest ihS ihrest f
    rw [orderChildren, stepsChildren, ihS f]
    cases stepsStmt ds S f with
    | none => simp
    | some r =>
      simp only [Option.map_some', ihrest r.2]
      cases stepsChildren ds rest r.2 with
      | none => simp
      | some r2 => simp [stepRefs_append]

theorem visitOrderStmt_eq (N : VarDecl → Option Stmt) (fuel : Nat) :
    ∀ t f, visitOrderStmt N fuel t = (steps N fuel t f).map (fun r => stepRefs r.1) := by
  induction fuel with
  | zero => intro t f; simp [visitOrderStmt, steps]
  | succ n ih =>
    intro t f
    rw [visitOrderStmt, steps]
    exact (orderStmt_eq _ _ (boundsOrder_eq N _ _ ih)).1 t f

theorem visitOrderParams_eq (N : VarDecl → Option Stmt) (fuel : Nat) (ps : List VarDecl) (f : Bool) :
    visitOrderParams N fuel ps = (paramSteps N fuel ps f).map (fun r => stepRefs r.1) := by
  induction ps generalizing f with
  | nil => simp [visitOrderParams, paramSteps, stepRefs]
  | cons P rest ih =>
    rw [visitOrderParams, paramSteps, boundsOrder_eq N _ _ (visitOrderStmt_eq N fuel) P f]
    cases declSteps N (steps N fuel) P f with
    | none => simp
    | some r =>
      simp only [Option.map_some', ih r.2]
      cases paramSteps N fuel rest r.2 with
      | none => simp
      | some r2 => simp [stepRefs_append]

theorem visitOrder_eq (N : VarDecl → Option Stmt) (fuel : Nat) (params : List VarDecl)
    (Body : Stmt) :
    visitOrder N fuel params Body = (passSteps N fuel params Body).map (fun r => stepRefs r.1) := by
  rw [visitOrder, passSteps, visitOrderParams_eq N fuel params false]
  cases paramSteps N fuel params false with
  | none => simp
  | some r =>
    simp only [Option.map_some', visitOrderStmt_eq N fuel Body r.2]
    cases steps N fuel Body r.2 with
    | none => simp
    | some r2 => simp [stepRefs_append]

theorem stepRefs_cons_ref (E : DeclRefExpr) (f : Bool) (l : List Step) :
    stepRefs ((Visit.declRefExpr E, f) :: l) = E :: stepRefs l := by
  simp [stepRefs, Visit.ref]

theorem stepRefs_cons_decl (V : VarDecl) (f : Bool) (l : List Step) :
    stepRefs ((Visit.varDecl V, f) :: l) = stepRefs l := by
  simp [stepRefs, Visit.ref]

theorem findSome_offers_of_bounds (V : VarDecl) (hv : V.isInvalidDecl = false)
    (hb : V.hasBoundsExpr = true) (l : List Step) :
    l.findSome? (offers V) = (stepRefs l).find? (fun E => E.resolvesTo V) := by
  induction l with
  | nil => simp [stepRefs]
  | cons x xs ih =>
    obtain ⟨n, f⟩ := x
    cases n with
    | varDecl W =>
      rw [stepRefs_cons_decl, ← ih]
      simp [List.findSome?, offers]
    | declRefExpr E =>
      rw [stepRefs_cons_ref]
      by_cases hr : E.resolvesTo V = true
      · simp [List.findSome?, offers, hr, hv, hb]
      · have ho : offers V (Visit.declRefExpr E, f) = none := by simp [offers, hr]
        rw [List.findSome?_cons, ho, List.find?_cons]
        simp only [hr]
        exact ih

theorem findSome_offers_of_invalid (V : VarDecl) (hv : V.isInvalidDecl = true) (l : List Step) :
    l.findSome? (offers V) = none := by
  induction l with
  | nil => rfl
  | cons x xs ih =>
    obtain ⟨n, f⟩ := x
    cases n <;> simp [List.findSome?, offers, hv, ih]

/-! ### Termination and the nodes reached -/

theorem declSteps_isSome (N : VarDecl → Option Stmt)
    (inner : Stmt → Bool → Option (List Step × Bool)) (ib : Stmt → Bool)
    (h : ∀ t f, (inner t f).isSome = ib t) (V : VarDecl) (f : Bool) :
    (declSteps N inner V f).isSome = nestDecl N ib V := by
  unfold declSteps nestDecl
  by_cases hi : V.isInvalidDecl = true
  · simp [hi]
  · by_cases hb : V.hasBoundsExpr = true
    · simp only [hi, hb, if_true, if_false]
      cases N V with
      | none => simp
      | some B =>
        simp only [← h B true]
        cases inner B true <;> simp
    · simp [hi, hb]

theorem stepsStmt_isSome (ds : VarDecl → Bool → Option (List Step × Bool)) (nd : VarDecl → Bool)
    (h : ∀ V f, (ds V f).isSome = nd V) :
    (∀ t f, (stepsStmt ds t f).isSome = nestStmt nd t) ∧
    (∀ l f, (stepsChildren ds l f).isSome = nestChildren nd l) := by
  apply Stmt.both
  · intro E cs ih f
    rw [stepsStmt, nestStmt, ← ih f]
    cases stepsChildren ds cs f <;> simp
  · intro V cs ih f
    rw [stepsStmt, nestStmt, ← h V f]
    cases ds V f with
    | none => simp
    | some r =>
      simp only [Option.isSome_some, Bool.true_and, ← ih r.2]
      cases stepsChildren ds cs r.2 <;> simp
  · intro cs ih f
    rw [stepsStmt, nestStmt, ih f]
  · intro f
    rw [stepsChildren, nestChildren]; simp
  · intro S rest ihS ihrest f
    rw [stepsChildren, nestChildren, ← ihS f]
    cases stepsStmt ds S f with
    | none => simp
    | some r =>
      simp only [Option.isSome_some, Bool.true_and, ← ihrest r.2]
      cases stepsChildren ds rest r.2 <;> simp

theorem steps_isSome (N : VarDecl → Option Stmt) (fuel : Nat) :
    ∀ t f, (steps N fuel t f).isSome = nestingBelow N fuel t := by
  induction fuel with
  | zero => intro t f; simp [steps, nestingBelow]
  | succ n ih =>
    intro t f
    rw [steps, nestingBelow]
    exact (stepsStmt_isSome _ _ (declSteps_isSome N _ _ ih)).1 t f

theorem paramSteps_isSome (N : VarDecl → Option Stmt) (fuel : Nat) (ps : List VarDecl) (f : Bool) :
    (paramSteps N fuel ps f).isSome = ps.all (nestDecl N (nestingBelow N fuel)) := by
  induction ps generalizing f with
  | nil => simp [paramSteps]
  | cons P rest ih =>
    rw [paramSteps, List.all_cons, ← declSteps_isSome N _ _ (steps_isSome N fuel) P f]
    cases declSteps N (steps N fuel) P f with
    | none => simp
    | some r =>
      simp only [Option.isSome_some, Bool.true_and, ← ih r.2]
      cases paramSteps N fuel rest r.2 <;> simp

theorem passSteps_isSome (N : VarDecl → Option Stmt) (fuel : Nat) (params : List VarDecl)
    (Body : Stmt) :
    (passSteps N fuel params Body).isSome = functionNesting N fuel params Body := by
  rw [passSteps, functionNesting, ← paramSteps_isSome N fuel params false]
  cases paramSteps N fuel params false with
  | none => simp
  | some r =>
    simp only [Option.isSome_some, Bool.true_and, ← steps_isSome N fuel Body r.2]
    cases steps N fuel Body r.2 <;> simp

theorem declSteps_head (N : VarDecl → Option Stmt)
    (inner : Stmt → Bool → Option (List Step × Bool)) (V : VarDecl) (f : Bool)
    (l : List Step) (f1 : Bool) (h : declSteps N inner V f = some (l, f1)) :
    Visit.varDecl V ∈ l.map Prod.fst := by
  unfold declSteps at h
  split_ifs at h
  · simp at h; simp [← h.1]
  · split at h
    · split at h
      · simp at h; simp [← h.1]
      · simp at h
    · simp at h; simp [← h.1]
  · simp at h; simp [← h.1]

theorem stepsStmt_nodes (ds : VarDecl → Bool → Option (List Step × Bool))
    (h : ∀ V f l f1, ds V f = some (l, f1) → Visit.varDecl V ∈ l.map Prod.fst) :
    (∀ t f l f1, stepsStmt ds t f = some (l, f1) → ∀ n ∈ t.nodes, n ∈ l.map Prod.fst) ∧
    (∀ cs f l f1, stepsChildren ds cs f = some (l, f1) →
      ∀ n ∈ Stmt.nodesList cs, n ∈ l.map Prod.fst) := by
  apply Stmt.both
  · intro E cs ih f l f1 hs n hn
    rw [stepsStmt] at hs
    rw [Stmt.nodes] at hn
    cases hc : stepsChildren ds cs f with
    | none => simp [hc] at hs
    | some r =>
      obtain ⟨l2, f2⟩ := r
      simp only [hc, Option.some.injEq, Prod.mk.injEq] at hs
      rcases List.mem_cons.1 hn with hn | hn
      · simp [← hs.1, hn]
      · have := ih f l2 f2 hc n hn
        rw [← hs.1]; simp only [List.map_cons, List.mem_cons]; exact Or.inr this
  · intro V cs ih f l f1 hs n hn
    rw [stepsStmt] at hs
    rw [Stmt.nodes] at hn
    cases hd : ds V f with
    | none => simp [hd] at hs
    | some r =>
      obtain ⟨l1, g1⟩ := r
      simp only [hd] at hs
      cases hc : stepsChildren ds cs g1 with
      | none => simp [hc] at hs
      | some r2 =>
        obtain ⟨l2, f2⟩ := r2
        simp only [hc, Option.some.injEq, Prod.mk.injEq] at hs
        rw [← hs.1, List.map_append, List.mem_append]
        rcases List.mem_cons.1 hn with hn | hn
        · subst hn; exact Or.inl (h V f l1 g1 hd)
        · exact Or.inr (ih g1 l2 f2 hc n hn)
  · intro cs ih f l f1 hs n hn
    rw [stepsStmt] at hs
    rw [Stmt.nodes] at hn
    exact ih f l f1 hs n hn
  · intro f l f1 hs n hn
    simp [Stmt.nodesList] at hn
  · intro S rest ihS ihrest f l f1 hs n hn
    rw [stepsChildren] at hs
    rw [Stmt.nodesList] at hn
    cases hd : stepsStmt ds S f with
    | none => simp [hd] at hs
    | some r =>
      obtain ⟨l1, g1⟩ := r
      simp only [hd] at hs
      cases hc : stepsChildren ds rest g1 with
      | none => simp [hc] at hs
      | some r2 =>
        obtain ⟨l2, f2⟩ := r2
        simp only [hc, Option.some.injEq, Prod.mk.injEq] at hs
        rw [← hs.1, List.map_append, List.mem_append]
        rcases List.mem_append.1 hn with hn | hn
        · exact Or.inl (ihS f l1 g1 hd n hn)
        · exact Or.inr (ihrest g1 l2 f2 hc n hn)

theorem steps_nodes (N : VarDecl → Option Stmt) (fuel : Nat) (t : Stmt) (f : Bool)
    (l : List Step) (f1 : Bool) (h : steps N fuel t f = some (l, f1)) :
    ∀ n ∈ t.nodes, n ∈ l.map Prod.fst := by
  cases fuel with
  | zero => simp [steps] at h
  | succ k =>
    rw [steps] at h
    exact (stepsStmt_nodes _ (declSteps_head N _)).1 t f l f1 h

theorem paramSteps_nodes (N : VarDecl → Option Stmt) (fuel : Nat) (ps : List VarDecl) (f : Bool)
    (l : List Step) (f1 : Bool) (h : paramSteps N fuel ps f = some (l, f1)) :
    ∀ P ∈ ps, Visit.varDecl P ∈ l.map Prod.fst := by
  induction ps generalizing f l f1 with
  | nil => intro P hP; simp at hP
  | cons Q rest ih =>
    intro P hP
    rw [paramSteps] at h
    cases hd : declSteps N (steps N fuel) Q f with
    | none => simp [hd] at h
    | some r =>
      obtain ⟨l1, g1⟩ := r
      simp only [hd] at h
      cases hc : paramSteps N fuel rest g1 with
      | none => simp [hc] at h
      | some r2 =>
        obtain ⟨l2, f2⟩ := r2
        simp only [hc, Option.some.injEq, Prod.mk.injEq] at h
        rw [← h.1, List.map_append, List.mem_append]
        rcases List.mem_cons.1 hP with hP | hP
        · subst hP; exact Or.inl (declSteps_head N _ P f l1 g1 hd)
        · exact Or.inr (ih g1 l2 f2 hc P hP)

/-! ### Trees without declaration nodes and the scenarios -/

theorem stepsStmt_declFree (ds : VarDecl → Bool → Option (List Step × Bool)) :
    (∀ t f, t.declFree = true → stepsStmt ds t f = some (t.nodes.map (fun n => (n, f)), f)) ∧
    (∀ cs f, (Stmt.nodesList cs).all (fun n => (Visit.ref n).isSome) = true →
      stepsChildren ds cs f = some ((Stmt.nodesList cs).map (fun n => (n, f)), f)) := by
  apply Stmt.both
  · intro E cs ih f h
    rw [Stmt.declFree, Stmt.nodes, List.all_cons] at h
    rw [stepsStmt, ih f (by simpa [Visit.ref] using h), Stmt.nodes]
    rfl
  · intro V cs ih f h
    rw [Stmt.declFree, Stmt.nodes, List.all_cons] at h
    simp [Visit.ref] at h
  · intro cs ih f h
    rw [Stmt.declFree, Stmt.nodes] at h
    rw [stepsStmt, ih f h, Stmt.nodes]
  · intro f h
    rw [stepsChildren, Stmt.nodesList]; rfl
  · intro S rest ihS ihrest f h
    rw [Stmt.nodesList, List.all_append, Bool.and_eq_true] at h
    rw [stepsChildren, ihS f h.1]
    simp only [ihrest f h.2, Stmt.nodesList, List.map_append]

theorem steps_declFree (N : VarDecl → Option Stmt) (fuel : Nat) (t : Stmt) (f : Bool)
    (h : t.declFree = true) :
    steps N (fuel + 1) t f = some (t.nodes.map (fun n => (n, f)), f) := by
  rw [steps]; exact (stepsStmt_declFree _).1 t f h

theorem find_nil (V : VarDecl) : VarUsageTy.find [] V = none := rfl

theorem findSome_offers_none (V : VarDecl) (l : List Step)
    (h : ∀ x ∈ l, offers V x = none) : l.findSome? (offers V) = none := by
  induction l with
  | nil => rfl
  | cons x xs ih =>
    rw [List.findSome?_cons, h x (List.mem_cons_self x xs)]
    exact ih (fun y hy => h y (List.mem_cons_of_mem x hy))

theorem mem_annot_of_mem (s : VarUsageTy) (l : List Step) (x : Step) (h : x ∈ l) :
    ∃ ev ∈ annot s l, ev.step = x := by
  have := annot_step s l
  rw [← this] at h
  obtain ⟨ev, hev, hx⟩ := List.mem_map.1 h
  exact ⟨ev, hev, hx⟩

theorem findSome_offers_of_relevant (V : VarDecl) (hv : V.isInvalidDecl = false)
    (l : List Step) (h : ∀ x ∈ l, (x.2 || V.hasBoundsExpr) = true) :
    l.findSome? (offers V) = (stepRefs l).find? (fun E => E.resolvesTo V) := by
  induction l with
  | nil => simp [stepRefs]
  | cons x xs ih =>
    have ih1 := ih (fun y hy => h y (List.mem_cons_of_mem x hy))
    have hx := h x (List.mem_cons_self x xs)
    obtain ⟨n, f⟩ := x
    cases n with
    | varDecl W =>
      rw [stepRefs_cons_decl, ← ih1]
      simp [List.findSome?, offers]
    | declRefExpr E =>
      rw [stepRefs_cons_ref]
      by_cases hr : E.resolvesTo V = true
      · simp only [] at hx
        simp [List.findSome?, offers, hr, hv, hx]
      · have ho : offers V (Visit.declRefExpr E, f) = none := by simp [offers, hr]
        rw [List.findSome?_cons, ho, List.find?_cons]
        simp only [hr]
        exact ih1

theorem stepRefs_nodes (t : Stmt) (f : Bool) :
    stepRefs (t.nodes.map (fun n => (n, f))) = t.refs := by
  simp [stepRefs, Stmt.refs, List.filterMap_map, Function.comp_def]

theorem declSteps_plain (N : VarDecl → Option Stmt)
    (inner : Stmt → Bool → Option (List Step × Bool)) (V : VarDecl) (f : Bool)
    (hv : V.isInvalidDecl = false) (hb : V.hasBoundsExpr = false) :
    declSteps N inner V f = some ([(Visit.varDecl V, f)], f) := by
  simp [declSteps, hv, hb]

theorem declSteps_bounds (N : VarDecl → Option Stmt)
    (inner : Stmt → Bool → Option (List Step × Bool)) (V : VarDecl) (f : Bool) (B : Stmt)
    (l : List Step) (f1 : Bool)
    (hv : V.isInvalidDecl = false) (hb : V.hasBoundsExpr = true) (hN : N V = some B)
    (hin : inner B true = some (l, f1)) :
    declSteps N inner V f = some ((Visit.varDecl V, f) :: l, false) := by
  simp [declSteps, hv, hb, hN, hin]

/-- The hook invocations of the pass on `f(len, p : bounds)` when the
normalized bounds tree of `p` and the body have no declaration node. -/
theorem passSteps_scenario (N : VarDecl → Option Stmt) (fuel : Nat) (len p : VarDecl)
    (B Body : Stmt)
    (hlv : len.isInvalidDecl = false) (hlb : len.hasBoundsExpr = false)
    (hpv : p.isInvalidDecl = false) (hpb : p.hasBoundsExpr = true)
    (hN : N p = some B) (hB : B.declFree = true) (hBody : Body.declFree = true) :
    passSteps N (fuel + 1) [len, p] Body =
      some ([(Visit.varDecl len, false), (Visit.varDecl p, false)] ++
        (B.nodes.map (fun n => (n, true)) ++ Body.nodes.map (fun n => (n, false))), false) := by
  simp [passSteps, paramSteps, declSteps_plain N _ len false hlv hlb,
    declSteps_bounds N _ p false B _ true hpv hpb hN (steps_declFree N fuel B true hB),
    steps_declFree N fuel Body false hBody]

theorem findSome_offers_false (V : VarDecl) (hb : V.hasBoundsExpr = false) (l : List Visit) :
    (l.map (fun n => (n, false))).findSome? (offers V) = none := by
  apply findSome_offers_none
  intro x hx
  obtain ⟨n, hn, rfl⟩ := List.mem_map.1 hx
  cases n <;> simp [offers, hb]

theorem CheckedCAnalysesPrepass_eq (N : VarDecl → Option Stmt) (fuel : Nat) (Info : PrepassInfo)
    (params : List VarDecl) (Body : Stmt) (l : List Step) (f : Bool)
    (h : passSteps N fuel params Body = some (l, f)) :
    CheckedCAnalysesPrepass N fuel Info params Body = some ⟨replay Info.VarUses l⟩ := by
  simp [CheckedCAnalysesPrepass, runPrepass_eq, h, PrepassHelper.after]

theorem nodesList_useCalls (p : VarDecl) (calls : List (Nat × Nat)) :
    Stmt.nodesList (calls.map (useCall p)) =
      calls.flatMap (fun c => [Visit.declRefExpr ⟨c.1, some (ValueDecl.nonVar 0)⟩,
        Visit.declRefExpr ⟨c.2, some (ValueDecl.var p)⟩]) := by
  induction calls with
  | nil => simp [Stmt.nodesList]
  | cons c cs ih =>
    simp [Stmt.nodesList, useCall, Stmt.nodes, ih]

theorem useBody_nodes (p : VarDecl) (calls : List (Nat × Nat)) :
    (useBody p calls).nodes =
      calls.flatMap (fun c => [Visit.declRefExpr ⟨c.1, some (ValueDecl.nonVar 0)⟩,
        Visit.declRefExpr ⟨c.2, some (ValueDecl.var p)⟩]) := by
  rw [useBody, Stmt.nodes, nodesList_useCalls]

theorem useBody_declFree (p : VarDecl) (calls : List (Nat × Nat)) :
    (useBody p calls).declFree = true := by
  simp [Stmt.declFree, useBody_nodes, Visit.ref]

/-! ### Independence from the normalizer on invalid declarations -/

theorem declSteps_congr (N N2 : VarDecl → Option Stmt)
    (inner : Stmt → Bool → Option (List Step × Bool))
    (hN : ∀ V, V.isInvalidDecl = false → N2 V = N V) :
    declSteps N2 inner = declSteps N inner := by
  funext V f
  unfold declSteps
  cases hv : V.isInvalidDecl with
  | true => simp
  | false => simp [hN V hv]

theorem steps_congr (N N2 : VarDecl → Option Stmt)
    (hN : ∀ V, V.isInvalidDecl = false → N2 V = N V) (fuel : Nat) :
    steps N2 fuel = steps N fuel := by
  induction fuel with
  | zero => rfl
  | succ n ih => rw [steps, steps, ih, declSteps_congr N N2 _ hN]

theorem passSteps_congr (N N2 : VarDecl → Option Stmt)
    (hN : ∀ V, V.isInvalidDecl = false → N2 V = N V) (fuel : Nat) (params : List VarDecl)
    (Body : Stmt) :
    passSteps N2 fuel params Body = passSteps N fuel params Body := by
  have hp : ∀ ps f, paramSteps N2 fuel ps f = paramSteps N fuel ps f := by
    intro ps
    induction ps with
    | nil => intro f; rfl
    | cons P rest ih =>
      intro f
      rw [paramSteps, paramSteps, steps_congr N N2 hN, declSteps_congr N N2 _ hN]
      simp only [ih]
  rw [passSteps, passSteps, hp, steps_congr N N2 hN]

theorem offers_none_of_not_mem (V : VarDecl) (l : List Step)
    (h : ∀ E ∈ stepRefs l, E.resolvesTo V = false) : ∀ x ∈ l, offers V x = none := by
  intro x hx
  obtain ⟨n, f⟩ := x
  cases n with
  | varDecl W => rfl
  | declRefExpr E =>
    have hE : E ∈ stepRefs l := by
      simp only [stepRefs, List.mem_filterMap]
      exact ⟨(Visit.declRefExpr E, f), hx, rfl⟩
    simp [offers, h E hE]

theorem trace_nodes (st : PrepassHelper) (l : List Step) (f : Bool) :
    (st.after l f).Trace.map Event.node = st.Trace.map Event.node ++ l.map Prod.fst := by
  have h : (annot st.Info.VarUses l).map Event.node = l.map Prod.fst := by
    conv_rhs => rw [← annot_step st.Info.VarUses l]
    rw [List.map_map]
    rfl
  simp [PrepassHelper.after, h]

/-! ### Replaying a run on its own result -/

theorem record_eq_self (s : VarUsageTy) (x : Step)
    (h : ∀ V E, offers V x = some E → s.find V ≠ none) : record s x = s := by
  obtain ⟨n, f⟩ := x
  cases n with
  | varDecl V => rfl
  | declRefExpr E =>
    rw [record_declRefExpr]
    cases hd : dyn_cast_or_null_VarDecl E.getDecl with
    | none => rfl
    | some V =>
      simp only []
      by_cases hi : V.isInvalidDecl = true
      · simp [hi]
      · by_cases hrel : (!f && !V.hasBoundsExpr) = true
        · simp [hi, hrel]
        · by_cases hc : VarUsageTy.count s V ≠ 0
          · simp [hi, hrel, hc]
          · exfalso
            have hor : (f || V.hasBoundsExpr) = true := by
              cases f <;> cases hh : V.hasBoundsExpr <;> simp_all
            have ho : offers V (Visit.declRefExpr E, f) = some E := by
              simp [offers, DeclRefExpr.resolvesTo, hd, hi, hor]
            exact hc ((count_ne_zero s V).2 (h V E ho))

theorem replay_eq_self (s : VarUsageTy) (l : List Step)
    (h : ∀ x ∈ l, ∀ V E, offers V x = some E → s.find V ≠ none) : replay s l = s := by
  induction l with
  | nil => rfl
  | cons x xs ih =>
    have hx : record s x = s := record_eq_self s x (h x (List.mem_cons_self x xs))
    have : replay s (x :: xs) = replay (record s x) xs := rfl
    rw [this, hx]
    exact ih (fun y hy => h y (List.mem_cons_of_mem x hy))

theorem find_replay_ne_none (s : VarUsageTy) (l : List Step) (x : Step) (hx : x ∈ l)
    (V : VarDecl) (E : DeclRefExpr) (ho : offers V x = some E) :
    (replay s l).find V ≠ none := by
  rw [find_replay]
  have h2 : l.findSome? (offers V) ≠ none := by
    intro hnone
    rw [List.findSome?_eq_none_iff] at hnone
    rw [hnone x hx] at ho
    exact absurd ho (by simp)
  cases h1 : s.find V with
  | some e => simp
  | none =>
    cases h3 : l.findSome? (offers V) with
    | none => exact absurd h3 h2
    | some e => simp

theorem replay_replay (s : VarUsageTy) (l : List Step) : replay (replay s l) l = replay s l :=
  replay_eq_self _ l (fun x hx V E ho => find_replay_ne_none s l x hx V E ho)

theorem find_append_single (s : VarUsageTy) (V : VarDecl) (E : DeclRefExpr)
    (h : s.find V = none) : s.assign V E = s ++ [(V, E)] := by
  induction s with
  | nil => rfl
  | cons kv rest ih =>
    obtain ⟨K, E0⟩ := kv
    by_cases hK : K = V
    · simp [VarUsageTy.find, hK] at h
    · simp only [VarUsageTy.find, hK, if_false] at h
      simp [VarUsageTy.assign, hK, ih h]

/-! ### More fuel does not change a result -/

theorem declSteps_mono (N : VarDecl → Option Stmt)
    (inner inner2 : Stmt → Bool → Option (List Step × Bool))
    (h : ∀ t f r, inner t f = some r → inner2 t f = some r) (V : VarDecl) (f : Bool)
    (r : List Step × Bool) (hr : declSteps N inner V f = some r) :
    declSteps N inner2 V f = some r := by
  unfold declSteps at hr ⊢
  by_cases hi : V.isInvalidDecl = true
  · simpa [hi] using hr
  · by_cases hb : V.hasBoundsExpr = true
    · simp only [hi, hb, if_true, if_false] at hr ⊢
      cases hN : N V with
      | none => simpa [hN] using hr
      | some B =>
        simp only [hN] at hr ⊢
        cases hin : inner B true with
        | none => simp [hin] at hr
        | some r1 =>
          rw [h B true r1 hin]
          simpa [hin] using hr
    · simpa [hi, hb] using hr

theorem stepsStmt_mono (ds ds2 : VarDecl → Bool → Option (List Step × Bool))
    (h : ∀ V f r, ds V f = some r → ds2 V f = some r) :
    (∀ t f r, stepsStmt ds t f = some r → stepsStmt ds2 t f = some r) ∧
    (∀ cs f r, stepsChildren ds cs f = some r → stepsChildren ds2 cs f = some r) := by
  apply Stmt.both
  · intro E cs ih f r hr
    rw [stepsStmt] at hr ⊢
    cases hc : stepsChildren ds cs f with
    | none => simp [hc] at hr
    | some r1 => rw [ih f r1 hc]; simpa [hc] using hr
  · intro V cs ih f r hr
    rw [stepsStmt] at hr ⊢
    cases hd : ds V f with
    | none => simp [hd] at hr
    | some r1 =>
      rw [h V f r1 hd]
      simp only [hd] at hr ⊢
      cases hc : stepsChildren ds cs r1.2 with
      | none => simp [hc] at hr
      | some r2 => rw [ih r1.2 r2 hc]; simpa [hc] using hr
  · intro cs ih f r hr
    rw [stepsStmt] at hr ⊢
    exact ih f r hr
  · intro f r hr
    rw [stepsChildren] at hr ⊢
    exact hr
  · intro S rest ihS ihrest f r hr
    rw [stepsChildren] at hr ⊢
    cases hd : stepsStmt ds S f with
    | none => simp [hd] at hr
    | some r1 =>
      rw [ihS f r1 hd]
      simp only [hd] at hr ⊢
      cases hc : stepsChildren ds rest r1.2 with
      | none => simp [hc] at hr
      | some r2 => rw [ihrest r1.2 r2 hc]; simpa [hc] using hr

theorem steps_succ (N : VarDecl → Option Stmt) (fuel : Nat) :
    ∀ t f r, steps N fuel t f = some r → steps N (fuel + 1) t f = some r := by
  induction fuel with
  | zero => intro t f r h; simp [steps] at h
  | succ n ih =>
    intro t f r h
    rw [steps] at h ⊢
    exact (stepsStmt_mono _ _ (declSteps_mono N _ _ ih)).1 t f r h

theorem steps_le (N : VarDecl → Option Stmt) (fuel fuel2 : Nat) (hle : fuel ≤ fuel2) :
    ∀ t f r, steps N fuel t f = some r → steps N fuel2 t f = some r := by
  induction hle with
  | refl => intro t f r h; exact h
  | step _ ih => intro t f r h; exact steps_succ N _ t f r (ih t f r h)

theorem paramSteps_le (N : VarDecl → Option Stmt) (fuel fuel2 : Nat) (hle : fuel ≤ fuel2)
    (ps : List VarDecl) :
    ∀ f r, paramSteps N fuel ps f = some r → paramSteps N fuel2 ps f = some r := by
  induction ps with
  | nil => intro f r h; exact h
  | cons P rest ih =>
    intro f r h
    rw [paramSteps] at h ⊢
    cases hd : declSteps N (steps N fuel) P f with
    | none => simp [hd] at h
    | some r1 =>
      rw [declSteps_mono N _ _ (steps_le N fuel fuel2 hle) P f r1 hd]
      simp only [hd] at h ⊢
      cases hc : paramSteps N fuel rest r1.2 with
      | none => simp [hc] at h
      | some r2 => rw [ih r1.2 r2 hc]; simpa [hc] using h

theorem passSteps_le (N : VarDecl → Option Stmt) (fuel fuel2 : Nat) (hle : fuel ≤ fuel2)
    (params : List VarDecl) (Body : Stmt) (r : List Step × Bool)
    (h : passSteps N fuel params Body = some r) : passSteps N fuel2 params Body = some r := by
  rw [passSteps] at h ⊢
  cases hd : paramSteps N fuel params false with
  | none => simp [hd] at h
  | some r1 =>
    rw [paramSteps_le N fuel fuel2 hle params false r1 hd]
    simp only [hd] at h ⊢
    cases hc : steps N fuel Body r1.2 with
    | none => simp [hc] at h
    | some r2 => rw [steps_le N fuel fuel2 hle Body r1.2 r2 hc]; simpa [hc] using h

theorem VisitVarDecl_continue (N : VarDecl → Option Stmt)
    (T : Stmt → PrepassHelper → Option (Bool × PrepassHelper)) (V : VarDecl)
    (st : PrepassHelper) (r : Bool × PrepassHelper) (h : VisitVarDecl N T V st = some r) :
    r.1 = true := by
  unfold VisitVarDecl at h
  simp only at h
  split_ifs at h
  · simp at h; rw [← h]
  · split at h
    · split at h
      · simp at h; rw [← h]
      · simp at h
    · simp at h; rw [← h]
  · simp at h; rw [← h]

theorem prepass_isSome (N : VarDecl → Option Stmt) (fuel : Nat) (Info : PrepassInfo)
    (params : List VarDecl) (Body : Stmt) :
    (CheckedCAnalysesPrepass N fuel Info params Body).isSome = functionNesting N fuel params Body := by
  rw [← passSteps_isSome, CheckedCAnalysesPrepass, runPrepass_eq]
  cases passSteps N fuel params Body <;> rfl

theorem nestStmt_of_forall (nd : VarDecl → Bool) (h : ∀ V, nd V = true) :
    (∀ t, nestStmt nd t = true) ∧ (∀ cs, nestChildren nd cs = true) := by
  apply Stmt.both
  · intro E cs ih; rw [nestStmt]; exact ih
  · intro V cs ih; rw [nestStmt, h V, ih]; rfl
  · intro cs ih; rw [nestStmt]; exact ih
  · rw [nestChildren]
  · intro S rest ihS ihrest; rw [nestChildren, ihS, ihrest]; rfl

theorem nestStmt_of_declFree (nd : VarDecl → Bool) :
    (∀ t, t.declFree = true → nestStmt nd t = true) ∧
    (∀ cs, (Stmt.nodesList cs).all (fun n => (Visit.ref n).isSome) = true →
      nestChildren nd cs = true) := by
  apply Stmt.both
  · intro E cs ih h
    rw [Stmt.declFree, Stmt.nodes, List.all_cons] at h
    rw [nestStmt]; exact ih (by simpa [Visit.ref] using h)
  · intro V cs ih h
    rw [Stmt.declFree, Stmt.nodes, List.all_cons] at h
    simp [Visit.ref] at h
  · intro cs ih h
    rw [Stmt.declFree, Stmt.nodes] at h
    rw [nestStmt]; exact ih h
  · intro _; rw [nestChildren]
  · intro S rest ihS ihrest h
    rw [Stmt.nodesList, List.all_append, Bool.and_eq_true] at h
    rw [nestChildren, ihS h.1, ihrest h.2]; rfl

theorem nestDecl_of_forall (N : VarDecl → Option Stmt) (inner : Stmt → Bool)
    (h : ∀ V B, N V = some B → inner B = true) (V : VarDecl) : nestDecl N inner V = true := by
  unfold nestDecl
  cases hN : N V with
  | none => simp
  | some B => simp [h V B hN]

/-- When no normalized bounds tree holds a declaration node, every function
has bounds nesting at most 2. -/
theorem functionNesting_of_declFree (N : VarDecl → Option Stmt)
    (h : ∀ V B, N V = some B → B.declFree = true) (params : List VarDecl) (Body : Stmt) :
    functionNesting N 2 params Body = true := by
  have h1 : ∀ V, nestDecl N (nestingBelow N 1) V = true :=
    nestDecl_of_forall N _ (fun V B hN => by
      rw [nestingBelow]; exact (nestStmt_of_declFree _).1 B (h V B hN))
  have h2 : ∀ t, nestingBelow N 2 t = true := by
    intro t; rw [nestingBelow]; exact (nestStmt_of_forall _ h1).1 t
  have h3 : ∀ V, nestDecl N (nestingBelow N 2) V = true :=
    nestDecl_of_forall N _ (fun V B _ => h2 B)
  rw [functionNesting, h2 Body, Bool.and_true, List.all_eq_true]
  intro V _
  exact h3 V

/-! ### The flag after a traversal -/

theorem declSteps_flag (N : VarDecl → Option Stmt)
    (inner : Stmt → Bool → Option (List Step × Bool)) (V : VarDecl) (f : Bool)
    (r : List Step × Bool) (h : declSteps N inner V f = some r) : r.2 = f ∨ r.2 = false := by
  unfold declSteps at h
  split_ifs at h
  · simp at h; rw [← h]; exact Or.inl rfl
  · split at h
    · split at h
      · simp at h; rw [← h]; exact Or.inr rfl
      · simp at h
    · simp at h; rw [← h]; exact Or.inl rfl
  · simp at h; rw [← h]; exact Or.inl rfl

theorem stepsStmt_flag (ds : VarDecl → Bool → Option (List Step × Bool))
    (h : ∀ V f r, ds V f = some r → r.2 = f ∨ r.2 = false) :
    (∀ t f r, stepsStmt ds t f = some r → r.2 = f ∨ r.2 = false) ∧
    (∀ cs f r, stepsChildren ds cs f = some r → r.2 = f ∨ r.2 = false) := by
  apply Stmt.both
  · intro E cs ih f r hr
    rw [stepsStmt] at hr
    cases hc : stepsChildren ds cs f with
    | none => simp [hc] at hr
    | some r1 =>
      simp only [hc, Option.some.injEq] at hr
      rw [← hr]; exact ih f r1 hc
  · intro V cs ih f r hr
    rw [stepsStmt] at hr
    cases hd : ds V f with
    | none => simp [hd] at hr
    | some r1 =>
      simp only [hd] at hr
      cases hc : stepsChildren ds cs r1.2 with
      | none => simp [hc] at hr
      | some r2 =>
        simp only [hc, Option.some.injEq] at hr
        rw [← hr]
        rcases ih r1.2 r2 hc with h2 | h2
        · rcases h V f r1 hd with h1 | h1
          · exact Or.inl (h2.trans h1)
          · exact Or.inr (h2.trans h1)
        · exact Or.inr h2
  · intro cs ih f r hr
    rw [stepsStmt] at hr
    exact ih f r hr
  · intro f r hr
    rw [stepsChildren] at hr
    simp only [Option.some.injEq] at hr
    rw [← hr]; exact Or.inl rfl
  · intro S rest ihS ihrest f r hr
    rw [stepsChildren] at hr
    cases hd : stepsStmt ds S f with
    | none => simp [hd] at hr
    | some r1 =>
      simp only [hd] at hr
      cases hc : stepsChildren ds rest r1.2 with
      | none => simp [hc] at hr
      | some r2 =>
        simp only [hc, Option.some.injEq] at hr
        rw [← hr]
        rcases ihrest r1.2 r2 hc with h2 | h2
        · rcases ihS f r1 hd with h1 | h1
          · exact Or.inl (h2.trans h1)
          · exact Or.inr (h2.trans h1)
        · exact Or.inr h2

theorem steps_flag (N : VarDecl → Option Stmt) (fuel : Nat) (t : Stmt) (f : Bool)
    (r : List Step × Bool) (h : steps N fuel t f = some r) : r.2 = f ∨ r.2 = false := by
  cases fuel with
  | zero => simp [steps] at h
  | succ n =>
    rw [steps] at h
    exact (stepsStmt_flag _ (declSteps_flag N _)).1 t f r h

theorem paramSteps_flag (N : VarDecl → Option Stmt) (fuel : Nat) (ps : List VarDecl) (f : Bool)
    (r : List Step × Bool) (h : paramSteps N fuel ps f = some r) : r.2 = f ∨ r.2 = false := by
  induction ps generalizing f r with
  | nil => simp only [paramSteps, Option.some.injEq] at h; rw [← h]; exact Or.inl rfl
  | cons P rest ih =>
    rw [paramSteps] at h
    cases hd : declSteps N (steps N fuel) P f with
    | none => simp [hd] at h
    | some r1 =>
      simp only [hd] at h
      cases hc : paramSteps N fuel rest r1.2 with
      | none => simp [hc] at h
      | some r2 =>
        simp only [hc, Option.some.injEq] at h
        rw [← h]
        rcases ih r1.2 r2 hc with h2 | h2
        · rcases declSteps_flag N _ P f r1 hd with h1 | h1
          · exact Or.inl (h2.trans h1)
          · exact Or.inr (h2.trans h1)
        · exact Or.inr h2

/-! ### The hook invocation behind an entry -/

theorem findSome_some_split {α β : Type} (f : α → Option β) (l : List α) (b : β)
    (h : l.findSome? f = some b) :
    ∃ l1 x l2, l = l1 ++ x :: l2 ∧ f x = some b ∧ l1.findSome? f = none := by
  induction l with
  | nil => simp at h
  | cons x xs ih =>
    rw [List.findSome?_cons] at h
    cases hx : f x with
    | some c =>
      simp only [hx, Option.some.injEq] at h
      exact ⟨[], x, xs, rfl, by rw [hx, h], rfl⟩
    | none =>
      simp only [hx] at h
      obtain ⟨l1, y, l2, hl, hfy, hnone⟩ := ih h
      exact ⟨x :: l1, y, l2, by rw [hl]; rfl, hfy, by rw [List.findSome?_cons, hx]; exact hnone⟩

theorem mem_annot_split (s : VarUsageTy) (l1 l2 : List Step) (x : Step) :
    (⟨x.1, x.2, replay s l1⟩ : Event) ∈ annot s (l1 ++ x :: l2) := by
  rw [annot_append]
  exact List.mem_append_right _ (by simp [annot])

theorem offers_some (V : VarDecl) (x : Step) (E : DeclRefExpr) (h : offers V x = some E) :
    x.1 = Visit.declRefExpr E ∧ dyn_cast_or_null_VarDecl E.getDecl = some V ∧
      V.isInvalidDecl = false ∧ (V.hasBoundsExpr = true ∨ x.2 = true) := by
  obtain ⟨n, f⟩ := x
  cases n with
  | varDecl W => simp [offers] at h
  | declRefExpr E1 =>
    simp only [offers, DeclRefExpr.resolvesTo] at h
    split_ifs at h with hc
    simp only [Option.some.injEq] at h
    subst h
    simp only [Bool.and_eq_true, decide_eq_true_eq, Bool.not_eq_true', Bool.or_eq_true] at hc
    exact ⟨rfl, hc.1.1, hc.1.2, hc.2.symm⟩

/-! ### Permuting the parameters -/

theorem paramSteps_perm (N : VarDecl → Option Stmt) (fuel : Nat) (ps1 ps2 : List VarDecl)
    (hperm : ps1.Perm ps2) :
    ∀ l1, paramSteps N fuel ps1 false = some (l1, false) →
      ∃ l2, paramSteps N fuel ps2 false = some (l2, false) ∧ l1.Perm l2 := by
  induction hperm with
  | nil => intro l1 h; exact ⟨l1, h, List.Perm.refl _⟩
  | cons P _ ih =>
    intro l1 h
    rw [paramSteps] at h ⊢
    cases hd : declSteps N (steps N fuel) P false with
    | none => simp [hd] at h
    | some r1 =>
      have hf : r1.2 = false := by
        rcases declSteps_flag N _ P false r1 hd with h1 | h1 <;> exact h1
      obtain ⟨a, g⟩ := r1
      simp only at hf
      subst hf
      simp only [hd] at h ⊢
      rename_i qs1 qs2 _
      cases hc : paramSteps N fuel qs1 false with
      | none => simp [hc] at h
      | some r2 =>
        have hf2 : r2.2 = false := by
          rcases paramSteps_flag N fuel qs1 false r2 hc with h1 | h1 <;> exact h1
        obtain ⟨b, g2⟩ := r2
        simp only at hf2
        subst hf2
        simp only [hc, Option.some.injEq, Prod.mk.injEq, and_true] at h
        obtain ⟨b2, hb2, hpb⟩ := ih b hc
        refine ⟨a ++ b2, by simp [hb2], ?_⟩
        rw [← h]
        exact List.Perm.append_left a hpb
  | swap P Q qs =>
    intro l1 h
    simp only [paramSteps] at h ⊢
    cases hdQ : declSteps N (steps N fuel) Q false with
    | none => simp [hdQ] at h
    | some rQ =>
      have hfQ : rQ.2 = false := by
        rcases declSteps_flag N _ Q false rQ hdQ with h1 | h1 <;> exact h1
      obtain ⟨a, g⟩ := rQ
      simp only at hfQ
      subst hfQ
      simp only [hdQ] at h ⊢
      cases hdP : declSteps N (steps N fuel) P false with
      | none => simp [hdP] at h
      | some rP =>
        have hfP : rP.2 = false := by
          rcases declSteps_flag N _ P false rP hdP with h1 | h1 <;> exact h1
        obtain ⟨b, g2⟩ := rP
        simp only at hfP
        subst hfP
        simp only [hdP, hdQ] at h ⊢
        cases hc : paramSteps N fuel qs false with
        | none => simp [hc] at h
        | some r3 =>
          obtain ⟨c, g3⟩ := r3
          simp only [hc, Option.some.injEq, Prod.mk.injEq] at h
          refine ⟨b ++ (a ++ c), by simp [h.2], ?_⟩
          rw [← h.1, ← List.append_assoc, ← List.append_assoc]
          exact List.Perm.append_right c List.perm_append_comm
  | trans _ _ ih1 ih2 =>
    intro l1 h
    obtain ⟨l2, h2, hp2⟩ := ih1 l1 h
    obtain ⟨l3, h3, hp3⟩ := ih2 l2 h2
    exact ⟨l3, h3, hp2.trans hp3⟩

theorem passSteps_perm (N : VarDecl → Option Stmt) (fuel : Nat) (ps1 ps2 : List VarDecl)
    (Body : Stmt) (hperm : ps1.Perm ps2) (l1 : List Step) (f1 : Bool)
    (h : passSteps N fuel ps1 Body = some (l1, f1)) :
    ∃ l2, passSteps N fuel ps2 Body = some (l2, f1) ∧ l1.Perm l2 := by
  rw [passSteps] at h ⊢
  cases hp : paramSteps N fuel ps1 false with
  | none => simp [hp] at h
  | some r =>
    have hf : r.2 = false := by
      rcases paramSteps_flag N fuel ps1 false r hp with h1 | h1 <;> exact h1
    obtain ⟨a, g⟩ := r
    simp only at hf
    subst hf
    simp only [hp] at h
    obtain ⟨a2, ha2, hpa⟩ := paramSteps_perm N fuel ps1 ps2 hperm a hp
    simp only [ha2]
    cases hb : steps N fuel Body false with
    | none => simp [hb] at h
    | some r2 =>
      obtain ⟨b, g2⟩ := r2
      simp only [hb, Option.some.injEq, Prod.mk.injEq] at h ⊢
      exact ⟨a2 ++ b, ⟨rfl, h.2⟩, by rw [← h.1]; exact List.Perm.append_right b hpa⟩

theorem find_replay_none_iff (s : VarUsageTy) (l : List Step) (V : VarDecl) :
    (replay s l).find V = none ↔ s.find V = none ∧ ∀ x ∈ l, offers V x = none := by
  rw [find_replay]
  cases hs : s.find V with
  | some e => simp
  | none => simp [List.findSome?_eq_none_iff]

/-! ### Well-founded nesting of bounds trees -/

theorem nestStmt_of_nodes (nd : VarDecl → Bool) :
    (∀ t, (∀ W, Visit.varDecl W ∈ t.nodes → nd W = true) → nestStmt nd t = true) ∧
    (∀ cs, (∀ W, Visit.varDecl W ∈ Stmt.nodesList cs → nd W = true) →
      nestChildren nd cs = true) := by
  apply Stmt.both
  · intro E cs ih h
    rw [nestStmt]
    apply ih
    intro W hW
    exact h W (by rw [Stmt.nodes]; exact List.mem_cons_of_mem _ hW)
  · intro V cs ih h
    rw [nestStmt, h V (by rw [Stmt.nodes]; exact List.mem_cons_self _ _),
      ih (fun W hW => h W (by rw [Stmt.nodes]; exact List.mem_cons_of_mem _ hW))]
    rfl
  · intro cs ih h
    rw [nestStmt]
    apply ih
    intro W hW
    exact h W (by rw [Stmt.nodes]; exact hW)
  · intro _; rw [nestChildren]
  · intro S rest ihS ihrest h
    rw [nestChildren,
      ihS (fun W hW => h W (by rw [Stmt.nodesList]; exact List.mem_append_left _ hW)),
      ihrest (fun W hW => h W (by rw [Stmt.nodesList]; exact List.mem_append_right _ hW))]
    rfl

theorem nestDecl_of_tree (N : VarDecl → Option Stmt) (inner : Stmt → Bool) (V : VarDecl)
    (h : ∀ B, V.isInvalidDecl = false → V.hasBoundsExpr = true → N V = some B →
      inner B = true) : nestDecl N inner V = true := by
  unfold nestDecl
  cases hv : V.isInvalidDecl with
  | true => simp
  | false =>
    cases hb : V.hasBoundsExpr with
    | false => simp
    | true =>
      cases hN : N V with
      | none => simp
      | some B => simp [h B hv hb hN]

/-- With a rank that decreases from a declaration to the declarations inside
its normalized bounds tree, a tree whose declarations have rank below `k` has
bounds nesting at most `k + 1`. -/
theorem nestingBelow_of_rank (N : VarDecl → Option Stmt) (rank : VarDecl → Nat)
    (hrank : ∀ V B, V.isInvalidDecl = false → V.hasBoundsExpr = true → N V = some B →
      ∀ W, Visit.varDecl W ∈ B.nodes → rank W < rank V) (k : Nat) :
    ∀ t, (∀ W, Visit.varDecl W ∈ t.nodes → rank W < k) → nestingBelow N (k + 1) t = true := by
  induction k with
  | zero =>
    intro t ht
    rw [nestingBelow]
    exact (nestStmt_of_nodes _).1 t (fun W hW => absurd (ht W hW) (Nat.not_lt_zero _))
  | succ k ih =>
    intro t ht
    rw [nestingBelow]
    apply (nestStmt_of_nodes _).1 t
    intro W hW
    apply nestDecl_of_tree
    intro B hv hb hN
    apply ih B
    intro W2 hW2
    have h1 := hrank W B hv hb hN W2 hW2
    have h2 := ht W hW
    omega

theorem exists_rank_bound (rank : VarDecl → Nat) (l : List VarDecl) :
    ∃ K, ∀ V ∈ l, rank V < K := by
  induction l with
  | nil => exact ⟨0, fun V hV => absurd hV (List.not_mem_nil V)⟩
  | cons x xs ih =>
    obtain ⟨K, hK⟩ := ih
    refine ⟨max K (rank x + 1), ?_⟩
    intro V hV
    rcases List.mem_cons.1 hV with h | h
    · subst h; omega
    · have := hK V h; omega

theorem exists_rank_bound_nodes (rank : VarDecl → Nat) (l : List Visit) :
    ∃ K, ∀ W, Visit.varDecl W ∈ l → rank W < K := by
  induction l with
  | nil => exact ⟨0, fun W hW => absurd hW (List.not_mem_nil _)⟩
  | cons x xs ih =>
    obtain ⟨K, hK⟩ := ih
    cases x with
    | declRefExpr E =>
      refine ⟨K, ?_⟩
      intro W hW
      rcases List.mem_cons.1 hW with h | h
      · cases h
      · exact hK W h
    | varDecl V =>
      refine ⟨max K (rank V + 1), ?_⟩
      intro W hW
      rcases List.mem_cons.1 hW with h | h
      · cases h; omega
      · have := hK W h; omega

/-- Well-founded nesting bounds the nesting of every function: with a rank
that decreases from a declaration to the declarations inside its normalized
bounds tree, every parameter list and body have bounded bounds nesting. -/
theorem functionNesting_of_rank (N : VarDecl → Option Stmt) (rank : VarDecl → Nat)
    (hrank : ∀ V B, V.isInvalidDecl = false → V.hasBoundsExpr = true → N V = some B →
      ∀ W, Visit.varDecl W ∈ B.nodes → rank W < rank V)
    (params : List VarDecl) (Body : Stmt) :
    ∃ depth, functionNesting N depth params Body = true := by
  obtain ⟨K1, hK1⟩ := exists_rank_bound rank params
  obtain ⟨K2, hK2⟩ := exists_rank_bound_nodes rank Body.nodes
  refine ⟨max K1 K2 + 1, ?_⟩
  rw [functionNesting, Bool.and_eq_true, List.all_eq_true]
  constructor
  · intro P hP
    apply nestDecl_of_tree
    intro B hv hb hN
    apply nestingBelow_of_rank N rank hrank (max K1 K2) B
    intro W hW
    have h1 := hrank P B hv hb hN W hW
    have h2 := hK1 P hP
    omega
  · apply nestingBelow_of_rank N rank hrank (max K1 K2) Body
    intro W hW
    have := hK2 W hW
    omega

/-- When the nesting of bounds traversals of the function is bounded by
`depth` (`functionNesting`), the pass returns the same final state for every
fuel from `depth` on, and in it the declaration hook has been invoked on every
parameter and the hooks on every declaration and reference node of the body;
the hooks and every traversal that returns give the continue signal `true`. -/
theorem completes_of_functionNesting (N : VarDecl → Option Stmt) (depth : Nat) (Info : PrepassInfo)
    (params : List VarDecl) (Body : Stmt)
    (hnest : functionNesting N depth params Body = true) :
    (∀ E st, (VisitDeclRefExpr E st).1 = true) ∧
    (∀ T V st r, VisitVarDecl N T V st = some r → r.1 = true) ∧
    (∀ fuel t st r, TraverseStmt N fuel t st = some r → r.1 = true) ∧
    ∃ final, (∀ fuel, depth ≤ fuel → runPrepass N fuel Info params Body = some final ∧
        CheckedCAnalysesPrepass N fuel Info params Body = some final.Info) ∧
      (∀ P ∈ params, Visit.varDecl P ∈ final.Trace.map Event.node) ∧
      (∀ n ∈ Body.nodes, n ∈ final.Trace.map Event.node) := by
  refine ⟨fun E st => by rw [VisitDeclRefExpr_eq],
    fun T V st r h => VisitVarDecl_continue N T V st r h, ?_, ?_⟩
  · intro fuel t st r h
    rw [TraverseStmt_eq] at h
    cases hs : steps N fuel t st.InBoundsExpr with
    | none => simp [hs, PrepassHelper.lift] at h
    | some r1 => simp only [hs, PrepassHelper.lift, Option.some.injEq] at h; rw [← h]
  · rw [← passSteps_isSome] at hnest
    cases hp : passSteps N depth params Body with
    | none => simp [hp] at hnest
    | some r =>
      obtain ⟨l, f⟩ := r
      refine ⟨(⟨Info, false, []⟩ : PrepassHelper).after l f, ?_, ?_, ?_⟩
      · intro fuel hle
        have h2 := passSteps_le N depth fuel hle params Body (l, f) hp
        have h3 : runPrepass N fuel Info params Body =
            some ((⟨Info, false, []⟩ : PrepassHelper).after l f) := by
          rw [runPrepass_eq, h2]
        exact ⟨h3, by simp [CheckedCAnalysesPrepass, h3]⟩
      · intro P hP
        rw [trace_nodes]
        simp only [passSteps] at hp
        cases hps : paramSteps N depth params false with
        | none => simp [hps] at hp
        | some r1 =>
          obtain ⟨l1, f1⟩ := r1
          simp only [hps] at hp
          cases hbs : steps N depth Body f1 with
          | none => simp [hbs] at hp
          | some r2 =>
            obtain ⟨l2, f2⟩ := r2
            simp only [hbs, Option.some.injEq, Prod.mk.injEq] at hp
            rw [← hp.1, List.map_append, List.map_nil, List.nil_append, List.mem_append]
            exact Or.inl (paramSteps_nodes N depth params false l1 f1 hps P hP)
      · intro n hn
        rw [trace_nodes]
        simp only [passSteps] at hp
        cases hps : paramSteps N depth params false with
        | none => simp [hps] at hp
        | some r1 =>
          obtain ⟨l1, f1⟩ := r1
          simp only [hps] at hp
          cases hbs : steps N depth Body f1 with
          | none => simp [hbs] at hp
          | some r2 =>
            obtain ⟨l2, f2⟩ := r2
            simp only [hbs, Option.some.injEq, Prod.mk.injEq] at hp
            rw [← hp.1, List.map_append, List.map_nil, List.nil_append, List.mem_append]
            exact Or.inr (steps_nodes N depth Body f1 l2 f2 hbs n hn)

/-- The normalizer `exNormalizeNested` is ranked by `exRank`. -/
theorem exNormalizeNested_ranked :
    ∀ V B, V.isInvalidDecl = false → V.hasBoundsExpr = true → exNormalizeNested V = some B →
      ∀ W, Visit.varDecl W ∈ B.nodes → exRank W < exRank V := by
  intro V B _ _ hN W hW
  unfold exNormalizeNested at hN
  split_ifs at hN with h1 h2
  · simp only [Option.some.injEq] at hN
    subst hN
    subst h1
    have hWi : W = exInner := by
      simpa [exNestedTree, Stmt.nodes, Stmt.nodesList] using hW
    subst hWi
    decide
  · simp only [Option.some.injEq] at hN
    subst hN
    simp [Stmt.nodes, Stmt.nodesList] at hW

/-! ## The claims -/

/-- Claim C1: first-write-wins over the whole pass.  For every normalizer,
parameter list, body and initial store, when the pass ends in the state
`final`: every entry of the initial store is in the final store with the same
reference, and so is every entry of the store at any hook invocation of the
pass (the trace records the store at each of them).  Hence no entry is ever
removed or overwritten; entries are only added for variables without one. -/
theorem prepass_first_write_wins (N : VarDecl → Option Stmt) (fuel : Nat) (Info : PrepassInfo)
    (params : List VarDecl) (Body : Stmt) (final : PrepassHelper)
    (h : runPrepass N fuel Info params Body = some final) :
    (∀ V E, Info.VarUses.find V = some E → final.Info.VarUses.find V = some E) ∧
    (∀ ev ∈ final.Trace, ∀ V E,
      ev.VarUses.find V = some E → final.Info.VarUses.find V = some E) ∧
    CheckedCAnalysesPrepass N fuel Info params Body = some final.Info := by
  obtain ⟨l, f, _, rfl⟩ := runPrepass_some N fuel Info params Body final h
  refine ⟨?_, ?_, ?_⟩
  · intro V E hV
    exact find_replay_mono _ l V E hV
  · intro ev hev V E hV
    simp only [PrepassHelper.after, List.nil_append] at hev
    obtain ⟨l1, l2, hl, hs⟩ := mem_annot _ _ _ hev
    simp only [PrepassHelper.after]
    rw [hl, replay_append, ← hs]
    exact find_replay_mono _ _ V E hV
  · simp [CheckedCAnalysesPrepass, h]

/-- Witness of C1: the function of the scenarios with the body `use(p);`, run
on a store that already maps `p` to an older reference, keeps that entry,
although the pass visits two other references to `p`. -/
theorem prepass_first_write_wins_witness :
    ∃ final, runPrepass exNormalizeRange 1 ⟨[(exP, exOldRef)]⟩ [exLen, exP]
        (useBody exP [(20, 21)]) = some final ∧
      final.Info.VarUses.find exP = some exOldRef ∧
      final.Info.VarUses.find exLen = some exRefLen :=
  ⟨_, rfl,
    (prepass_first_write_wins exNormalizeRange 1 ⟨[(exP, exOldRef)]⟩ [exLen, exP]
      (useBody exP [(20, 21)]) _ rfl).1 exP exOldRef (by decide),
    by decide⟩

/-- Claim C2: run from an empty store, for a variable `V` that carries a
declared bounds expression: when the final store has an entry `V -> E`, `E` is
the first reference node resolving to `V` in the visit order of the pass
(`visitOrder`: the parameters in declaration order, each followed by the
depth-first traversal of its normalized bounds tree, then the body depth-first
left to right, the bounds tree of a body declaration being traversed when the
declaration is visited). -/
theorem stored_reference_is_first_visited (N : VarDecl → Option Stmt) (fuel : Nat)
    (params : List VarDecl) (Body : Stmt) (final : PrepassHelper) (V : VarDecl)
    (E : DeclRefExpr)
    (h : runPrepass N fuel ⟨[]⟩ params Body = some final)
    (hb : V.hasBoundsExpr = true)
    (hE : final.Info.VarUses.find V = some E) :
    ∃ order, visitOrder N fuel params Body = some order ∧
      order.find? (fun E1 => E1.resolvesTo V) = some E := by
  obtain ⟨l, f, hp, rfl⟩ := runPrepass_some N fuel ⟨[]⟩ params Body final h
  refine ⟨stepRefs l, by rw [visitOrder_eq, hp]; rfl, ?_⟩
  simp only [PrepassHelper.after, find_replay, find_nil, Option.none_or] at hE
  cases hv : V.isInvalidDecl with
  | true => rw [findSome_offers_of_invalid V hv] at hE; exact absurd hE (by simp)
  | false => rw [← findSome_offers_of_bounds V hv hb]; exact hE

/-- Witness of C2: in `f(int len, char *p : count(len)) { use(p); use(p); }`
with a normalized tree mentioning `len` only, the entry of `p` is the argument
of the first call. -/
theorem stored_reference_is_first_visited_witness :
    ∃ final, runPrepass exNormalizeCount 1 ⟨[]⟩ [exLen, exP]
        (useBody exP [(20, 21), (22, 23)]) = some final ∧
      final.Info.VarUses.find exP = some ⟨21, some (ValueDecl.var exP)⟩ ∧
      ∃ order, visitOrder exNormalizeCount 1 [exLen, exP]
          (useBody exP [(20, 21), (22, 23)]) = some order ∧
        order.find? (fun E1 => E1.resolvesTo exP) = some ⟨21, some (ValueDecl.var exP)⟩ :=
  ⟨_, rfl, by decide,
    stored_reference_is_first_visited exNormalizeCount 1 [exLen, exP]
      (useBody exP [(20, 21), (22, 23)]) _ exP ⟨21, some (ValueDecl.var exP)⟩ rfl
      (by decide) (by decide)⟩

/-- Claim C3: run from an empty store, for a variable `V` without a declared
bounds expression: when no invocation of the reference hook on a node
resolving to `V` happened with `InBoundsExpr` true, the final store has no
entry for `V`. -/
theorem no_entry_without_bounds_use (N : VarDecl → Option Stmt) (fuel : Nat)
    (params : List VarDecl) (Body : Stmt) (final : PrepassHelper) (V : VarDecl)
    (h : runPrepass N fuel ⟨[]⟩ params Body = some final)
    (hb : V.hasBoundsExpr = false)
    (hflag : ∀ ev ∈ final.Trace, ev.isRefTo V = true → ev.InBoundsExpr = false) :
    final.Info.VarUses.find V = none := by
  obtain ⟨l, f, hp, rfl⟩ := runPrepass_some N fuel ⟨[]⟩ params Body final h
  simp only [PrepassHelper.after, find_replay, find_nil, Option.none_or, List.nil_append] at hflag ⊢
  apply findSome_offers_none
  intro x hx
  obtain ⟨ev, hev, hstep⟩ := mem_annot_of_mem [] l x hx
  have hf := hflag ev hev
  obtain ⟨n, g⟩ := x
  cases n with
  | varDecl W => rfl
  | declRefExpr E1 =>
    simp only [Event.step, Prod.mk.injEq] at hstep
    simp only [Event.isRefTo, hstep.1, hstep.2] at hf
    by_cases hr : E1.resolvesTo V = true
    · simp [offers, hf hr, hb]
    · simp [offers, hr]

/-- Witness of C3: in `f(int len, char *p : count(len)) { use(len); }` where
normalization of the bounds of `p` gives no tree, `len` is referenced only
outside bounds expressions and gets no entry. -/
theorem no_entry_without_bounds_use_witness :
    ∃ final, runPrepass (fun _ => none) 1 ⟨[]⟩ [exLen, exP] (useBody exLen [(20, 21)]) = some final ∧
      (∀ ev ∈ final.Trace, ev.isRefTo exLen = true → ev.InBoundsExpr = false) ∧
      final.Info.VarUses.find exLen = none :=
  ⟨_, rfl, by decide,
    no_entry_without_bounds_use (fun _ => none) 1 [exLen, exP] (useBody exLen [(20, 21)]) _ exLen
      rfl (by decide) (by decide)⟩

/-- Counterexample to C4: with the range form `bounds(p, p + len)` as the
normalized bounds of `p` and an empty body, the pass ends with an entry for
`p`: the reference to `p` in the lower bound of the range. -/
theorem scenarioA_range_form_records_p :
    ∃ final, CheckedCAnalysesPrepass exNormalizeRange 1 ⟨[]⟩ [exLen, exP] exEmptyBody = some final ∧
      final.VarUses.find exLen = some exRefLen ∧
      final.VarUses.find exP = some exRefP ∧ final.VarUses.find exP ≠ none :=
  ⟨_, rfl, by decide, by decide, by decide⟩

/-- Claim C4, amended: scenario A.  For `f(int len, char *p : count(len))`
with both parameters valid, a body without reference or declaration nodes, an
empty initial store and every declaration-free tree `B` returned for the
bounds of `p`: the pass ends, the final store maps `len` to the first
reference to `len` in `B`, and it maps `p` to the first reference to `p` in
`B`; it has no entry for `p` exactly when `B` contains no reference to `p`. -/
theorem scenarioA_store (N : VarDecl → Option Stmt) (fuel : Nat) (len p : VarDecl)
    (B Body : Stmt)
    (hlv : len.isInvalidDecl = false) (hlb : len.hasBoundsExpr = false)
    (hpv : p.isInvalidDecl = false) (hpb : p.hasBoundsExpr = true)
    (hN : N p = some B) (hB : B.declFree = true) (hBody : Body.nodes = []) :
    ∃ final, CheckedCAnalysesPrepass N (fuel + 1) ⟨[]⟩ [len, p] Body = some final ∧
      final.VarUses.find len = B.refs.find? (fun E => E.resolvesTo len) ∧
      final.VarUses.find p = B.refs.find? (fun E => E.resolvesTo p) ∧
      (final.VarUses.find p = none ↔ ∀ E ∈ B.refs, E.resolvesTo p = false) := by
  have hBd : Body.declFree = true := by simp [Stmt.declFree, hBody]
  have hs := passSteps_scenario N fuel len p B Body hlv hlb hpv hpb hN hB hBd
  refine ⟨_, CheckedCAnalysesPrepass_eq N _ ⟨[]⟩ _ _ _ _ hs, ?_⟩
  have key : ∀ V : VarDecl, V.isInvalidDecl = false →
      (replay [] ([(Visit.varDecl len, false), (Visit.varDecl p, false)] ++
        (B.nodes.map (fun n => (n, true)) ++ Body.nodes.map (fun n => (n, false))))).find V =
      B.refs.find? (fun E => E.resolvesTo V) := by
    intro V hV
    rw [find_replay, find_nil, Option.none_or, hBody]
    simp only [List.map_nil, List.append_nil, List.cons_append, List.nil_append,
      List.findSome?_cons, offers]
    rw [findSome_offers_of_relevant V hV _ (by simp), stepRefs_nodes]
  refine ⟨key len hlv, key p hpv, ?_⟩
  rw [key p hpv]
  simp [List.find?_eq_none]

/-- Witness of C4: a normalized tree that mentions `len` only. -/
theorem scenarioA_store_witness :
    ∃ final, CheckedCAnalysesPrepass exNormalizeCount 1 ⟨[]⟩ [exLen, exP] exEmptyBody = some final ∧
      final.VarUses.find exLen = exCountTree.refs.find? (fun E => E.resolvesTo exLen) ∧
      final.VarUses.find exP = exCountTree.refs.find? (fun E => E.resolvesTo exP) ∧
      (final.VarUses.find exP = none ↔ ∀ E ∈ exCountTree.refs, E.resolvesTo exP = false) :=
  scenarioA_store exNormalizeCount 0 exLen exP exCountTree exEmptyBody rfl rfl rfl rfl rfl
    (by decide) rfl

/-- Counterexample to C5: with the range form `bounds(p, p + len)` as the
normalized bounds of `p` and the body `{ use(p); use(p); }`, the entry of `p`
is the reference to `p` in the lower bound of the range, not the argument of
the first call. -/
theorem scenarioBC_range_form_wins :
    ∃ final, CheckedCAnalysesPrepass exNormalizeRange 1 ⟨[]⟩ [exLen, exP]
        (useBody exP [(20, 21), (22, 23)]) = some final ∧
      final.VarUses.find exP = some exRefP ∧
      final.VarUses.find exP ≠ some ⟨21, some (ValueDecl.var exP)⟩ :=
  ⟨_, rfl, by decide, by decide⟩

/-- Claim C5, amended: scenarios B and C.  For
`f(int len, char *p : count(len))` with both parameters valid, an empty
initial store, a body of one or more calls `use(p)` and every declaration-free
tree `B` returned for the bounds of `p`: the pass ends, the final store maps
`len` to the first reference to `len` in `B`, and it maps `p` to the first
reference to `p` in `B` when there is one, and otherwise to the argument of
the first call `use(p)` (never of a later one). -/
theorem scenarioBC_store (N : VarDecl → Option Stmt) (fuel : Nat) (len p : VarDecl)
    (B : Stmt) (call : Nat × Nat) (calls : List (Nat × Nat))
    (hlv : len.isInvalidDecl = false) (hlb : len.hasBoundsExpr = false)
    (hpv : p.isInvalidDecl = false) (hpb : p.hasBoundsExpr = true)
    (hN : N p = some B) (hB : B.declFree = true) :
    ∃ final, CheckedCAnalysesPrepass N (fuel + 1) ⟨[]⟩ [len, p]
        (useBody p (call :: calls)) = some final ∧
      final.VarUses.find len = B.refs.find? (fun E => E.resolvesTo len) ∧
      final.VarUses.find p =
        (B.refs.find? (fun E => E.resolvesTo p)).or (some ⟨call.2, some (ValueDecl.var p)⟩) ∧
      ((∀ E ∈ B.refs, E.resolvesTo p = false) →
        final.VarUses.find p = some ⟨call.2, some (ValueDecl.var p)⟩) := by
  have hs := passSteps_scenario N fuel len p B (useBody p (call :: calls)) hlv hlb hpv hpb hN hB
    (useBody_declFree p _)
  refine ⟨_, CheckedCAnalysesPrepass_eq N _ ⟨[]⟩ _ _ _ _ hs, ?_⟩
  have key : ∀ V : VarDecl, V.isInvalidDecl = false →
      (replay [] ([(Visit.varDecl len, false), (Visit.varDecl p, false)] ++
        (B.nodes.map (fun n => (n, true)) ++
          (useBody p (call :: calls)).nodes.map (fun n => (n, false))))).find V =
      (B.refs.find? (fun E => E.resolvesTo V)).or
        (((useBody p (call :: calls)).nodes.map (fun n => (n, false))).findSome? (offers V)) := by
    intro V hV
    rw [find_replay, find_nil, Option.none_or]
    simp only [List.cons_append, List.nil_append, List.findSome?_cons, offers,
      List.findSome?_append]
    rw [findSome_offers_of_relevant V hV _ (by simp), stepRefs_nodes]
  have hlen := key len hlv
  rw [findSome_offers_false len hlb, Option.or_none] at hlen
  have hp := key p hpv
  have hfirst : ((useBody p (call :: calls)).nodes.map (fun n => (n, false))).findSome? (offers p) =
      some ⟨call.2, some (ValueDecl.var p)⟩ := by
    simp [useBody_nodes, List.findSome?_cons, offers, DeclRefExpr.resolvesTo,
      dyn_cast_or_null_VarDecl, hpv, hpb]
  rw [hfirst] at hp
  refine ⟨hlen, hp, ?_⟩
  intro hno
  rw [hp, List.find?_eq_none.2 (by simpa using hno)]
  rfl

/-- Witness of C5: a normalized tree that mentions `len` only, two calls. -/
theorem scenarioBC_store_witness :
    ∃ final, CheckedCAnalysesPrepass exNormalizeCount 1 ⟨[]⟩ [exLen, exP]
        (useBody exP ((20, 21) :: [(22, 23)])) = some final ∧
      final.VarUses.find exLen = exCountTree.refs.find? (fun E => E.resolvesTo exLen) ∧
      final.VarUses.find exP =
        (exCountTree.refs.find? (fun E => E.resolvesTo exP)).or
          (some ⟨21, some (ValueDecl.var exP)⟩) ∧
      ((∀ E ∈ exCountTree.refs, E.resolvesTo exP = false) →
        final.VarUses.find exP = some ⟨21, some (ValueDecl.var exP)⟩) :=
  scenarioBC_store exNormalizeCount 0 exLen exP exCountTree (20, 21) [(22, 23)] rfl rfl rfl rfl rfl
    (by decide)

/-- Claim C6: scenario D.  Run from an empty store on a function with a
parameter `q` marked invalid that carries a bounds expression: the declaration
hook is invoked on `q`, the final store has no entry for `q`, the run (store
and trace) is the same whatever the normalizer would return for invalid
declarations, so their bounds are never normalized or traversed, and a
variable `W` that no reference node outside the bounds of `q` resolves to has
no entry. -/
theorem invalid_parameter_skipped (N : VarDecl → Option Stmt) (fuel : Nat)
    (params : List VarDecl) (Body : Stmt) (q : VarDecl) (final : PrepassHelper)
    (hq : q ∈ params) (hinv : q.isInvalidDecl = true) (hb : q.hasBoundsExpr = true)
    (h : runPrepass N fuel ⟨[]⟩ params Body = some final) :
    Visit.varDecl q ∈ final.Trace.map Event.node ∧
    final.Info.VarUses.find q = none ∧
    (∀ N2 : VarDecl → Option Stmt, (∀ V, V.isInvalidDecl = false → N2 V = N V) →
      runPrepass N2 fuel ⟨[]⟩ params Body = some final) ∧
    (∀ W, (∀ order, visitOrder (fun V => if V = q then none else N V) fuel params Body =
          some order → ∀ E ∈ order, E.resolvesTo W = false) →
      final.Info.VarUses.find W = none) := by
  obtain ⟨l, f, hp, rfl⟩ := runPrepass_some N fuel ⟨[]⟩ params Body final h
  refine ⟨?_, ?_, ?_, ?_⟩
  · rw [trace_nodes]
    simp only [passSteps] at hp
    cases hps : paramSteps N fuel params false with
    | none => simp [hps] at hp
    | some r =>
      obtain ⟨l1, f1⟩ := r
      simp only [hps] at hp
      cases hbs : steps N fuel Body f1 with
      | none => simp [hbs] at hp
      | some r2 =>
        obtain ⟨l2, f2⟩ := r2
        simp only [hbs, Option.some.injEq, Prod.mk.injEq] at hp
        rw [← hp.1, List.map_append, List.map_nil, List.nil_append, List.mem_append]
        exact Or.inl (paramSteps_nodes N fuel params false l1 f1 hps q hq)
  · simp only [PrepassHelper.after, find_replay, find_nil, Option.none_or]
    exact findSome_offers_of_invalid q hinv l
  · intro N2 hN2
    rw [runPrepass_eq, passSteps_congr N N2 hN2, hp]
  · intro W hW
    have hcongr := passSteps_congr N (fun V => if V = q then none else N V)
      (by intro V hV; have : V ≠ q := by rintro rfl; rw [hinv] at hV; exact absurd hV (by simp)
          simp [this]) fuel params Body
    have ho := hW (stepRefs l) (by rw [visitOrder_eq, hcongr, hp]; rfl)
    simp only [PrepassHelper.after, find_replay, find_nil, Option.none_or]
    exact findSome_offers_none W l (offers_none_of_not_mem W l ho)

/-- Witness of C6: `f(int len, char *q : count(len)) { use(q); }` with `q`
marked invalid ends with an empty store. -/
theorem invalid_parameter_skipped_witness :
    ∃ final, runPrepass exNormalizeInvalid 1 ⟨[]⟩ [exLen, exInvalid]
        (useBody exInvalid [(20, 21)]) = some final ∧
      final.Info.VarUses = [] ∧
      Visit.varDecl exInvalid ∈ final.Trace.map Event.node ∧
      final.Info.VarUses.find exInvalid = none ∧
      (∀ N2 : VarDecl → Option Stmt,
        (∀ V, V.isInvalidDecl = false → N2 V = exNormalizeInvalid V) →
        runPrepass N2 1 ⟨[]⟩ [exLen, exInvalid] (useBody exInvalid [(20, 21)]) = some final) ∧
      (∀ W, (∀ order, visitOrder (fun V => if V = exInvalid then none else exNormalizeInvalid V) 1
            [exLen, exInvalid] (useBody exInvalid [(20, 21)]) = some order →
          ∀ E ∈ order, E.resolvesTo W = false) →
        final.Info.VarUses.find W = none) :=
  ⟨_, rfl, by decide,
    invalid_parameter_skipped exNormalizeInvalid 1 [exLen, exInvalid]
      (useBody exInvalid [(20, 21)]) exInvalid _ (by decide) rfl rfl rfl⟩

/-- Claim C7: idempotence of the pass.  For every normalizer, parameter list,
body and initial store, when the pass run on `Info` ends with the store
`Info1`, the pass run again on `Info1` (same function, same normalizer) ends
with the store `Info1` unchanged. -/
theorem prepass_idempotent (N : VarDecl → Option Stmt) (fuel : Nat) (Info Info1 : PrepassInfo)
    (params : List VarDecl) (Body : Stmt)
    (h : CheckedCAnalysesPrepass N fuel Info params Body = some Info1) :
    CheckedCAnalysesPrepass N fuel Info1 params Body = some Info1 := by
  cases hp : passSteps N fuel params Body with
  | none => simp [CheckedCAnalysesPrepass, runPrepass_eq, hp] at h
  | some r =>
    obtain ⟨l, f⟩ := r
    rw [CheckedCAnalysesPrepass_eq N fuel Info params Body l f hp] at h
    rw [CheckedCAnalysesPrepass_eq N fuel Info1 params Body l f hp]
    simp only [Option.some.injEq] at h
    subst h
    simp only [replay_replay]

/-- Witness of C7: the function of the scenarios with the body `use(p);`. -/
theorem prepass_idempotent_witness :
    ∃ Info1, CheckedCAnalysesPrepass exNormalizeRange 1 ⟨[]⟩ [exLen, exP]
        (useBody exP [(20, 21)]) = some Info1 ∧ Info1.VarUses ≠ [] ∧
      CheckedCAnalysesPrepass exNormalizeRange 1 Info1 [exLen, exP]
        (useBody exP [(20, 21)]) = some Info1 :=
  ⟨_, rfl, by decide,
    prepass_idempotent exNormalizeRange 1 ⟨[]⟩ _ [exLen, exP] (useBody exP [(20, 21)]) rfl⟩

/-- Claim C8: the exact effect of the reference hook.  For every store, flag
and reference node `E`: the flag is unchanged; when `E` resolves to a variable
`V` that is not invalid, the flag is true or `V` carries a bounds expression,
and the store has no entry for `V`, the new store is the old one with the
single entry `V -> E` added; in every other case the store is unchanged; and
in all cases the entry of every variable other than the one `E` resolves to
is unchanged. -/
theorem VisitDeclRefExpr_exact (E : DeclRefExpr) (self : PrepassHelper) :
    (VisitDeclRefExpr E self).2.InBoundsExpr = self.InBoundsExpr ∧
    (∀ V, dyn_cast_or_null_VarDecl E.getDecl = some V → V.isInvalidDecl = false →
        (self.InBoundsExpr = true ∨ V.hasBoundsExpr = true) → self.Info.VarUses.find V = none →
      (VisitDeclRefExpr E self).2.Info.VarUses = self.Info.VarUses ++ [(V, E)] ∧
      (VisitDeclRefExpr E self).2.Info.VarUses.find V = some E) ∧
    ((¬ ∃ V, dyn_cast_or_null_VarDecl E.getDecl = some V ∧ V.isInvalidDecl = false ∧
        (self.InBoundsExpr = true ∨ V.hasBoundsExpr = true) ∧ self.Info.VarUses.find V = none) →
      (VisitDeclRefExpr E self).2.Info = self.Info) ∧
    (∀ W, dyn_cast_or_null_VarDecl E.getDecl ≠ some W →
      (VisitDeclRefExpr E self).2.Info.VarUses.find W = self.Info.VarUses.find W) := by
  have hstore : (VisitDeclRefExpr E self).2.Info.VarUses =
      record self.Info.VarUses (Visit.declRefExpr E, self.InBoundsExpr) := by
    rw [VisitDeclRefExpr_eq]; rfl
  refine ⟨by rw [VisitDeclRefExpr_eq]; rfl, ?_, ?_, ?_⟩
  · intro V hd hv hrel hnone
    have hc : ¬ VarUsageTy.count self.Info.VarUses V ≠ 0 := by
      intro hc; exact (count_ne_zero _ V).1 hc hnone
    have hr : ¬ (!self.InBoundsExpr && !V.hasBoundsExpr) = true := by
      rcases hrel with h1 | h1 <;> simp [h1]
    have hs : (VisitDeclRefExpr E self).2.Info.VarUses = self.Info.VarUses.assign V E := by
      rw [hstore, record_declRefExpr, hd]
      simp only [hv, hr, hc, if_false, Bool.false_eq_true]
    rw [hs]
    exact ⟨find_append_single _ V E hnone, by rw [find_assign]; simp⟩
  · intro hno
    have : (VisitDeclRefExpr E self).2.Info.VarUses = self.Info.VarUses := by
      rw [hstore]
      apply record_eq_self
      intro V E1 ho
      intro hnone
      apply hno
      simp only [offers, DeclRefExpr.resolvesTo] at ho
      split_ifs at ho with hcond
      simp only [Bool.and_eq_true, decide_eq_true_eq, Bool.not_eq_true', Bool.or_eq_true] at hcond
      exact ⟨V, hcond.1.1, hcond.1.2, hcond.2, hnone⟩
    cases hI : (VisitDeclRefExpr E self).2.Info with
    | mk vu =>
      rw [hI] at this
      simp only at this
      rw [this]
  · intro W hW
    rw [hstore, find_record]
    have : offers W (Visit.declRefExpr E, self.InBoundsExpr) = none := by
      simp [offers, DeclRefExpr.resolvesTo, hW]
    rw [this, Option.or_none]

/-- Witness of C8: the reference to `len` visited inside a bounds expression
on an empty store adds the entry for `len`. -/
theorem VisitDeclRefExpr_exact_witness :
    (VisitDeclRefExpr exRefLen ⟨⟨[]⟩, true, []⟩).2.Info.VarUses = [] ++ [(exLen, exRefLen)] ∧
    (VisitDeclRefExpr exRefLen ⟨⟨[]⟩, true, []⟩).2.Info.VarUses.find exLen = some exRefLen :=
  (VisitDeclRefExpr_exact exRefLen ⟨⟨[]⟩, true, []⟩).2.1 exLen rfl rfl (Or.inl rfl) rfl

/-- Claim C9: the pass never aborts early.  Both hooks return the continue
signal `true` on every input and state, and so does every traversal that
returns.  For every parameter list, body and normalizer of a well-formed
function, that is one whose declarations carry a rank that decreases from a
declaration to the declarations inside its normalized bounds tree (the tree of
`V` never holds the declaration of `V` itself, directly or through other
bounds), the pass terminates: from some fuel on it returns one and the same
final state and store, in which the declaration hook has been invoked on every
parameter and the hooks on every declaration and reference node of the body.
There is no failure result. -/
theorem prepass_completes (N : VarDecl → Option Stmt) (rank : VarDecl → Nat)
    (Info : PrepassInfo) (params : List VarDecl) (Body : Stmt)
    (hrank : ∀ V B, V.isInvalidDecl = false → V.hasBoundsExpr = true → N V = some B →
      ∀ W, Visit.varDecl W ∈ B.nodes → rank W < rank V) :
    (∀ E st, (VisitDeclRefExpr E st).1 = true) ∧
    (∀ T V st r, VisitVarDecl N T V st = some r → r.1 = true) ∧
    (∀ fuel t st r, TraverseStmt N fuel t st = some r → r.1 = true) ∧
    ∃ depth final, (∀ fuel, depth ≤ fuel → runPrepass N fuel Info params Body = some final ∧
        CheckedCAnalysesPrepass N fuel Info params Body = some final.Info) ∧
      (∀ P ∈ params, Visit.varDecl P ∈ final.Trace.map Event.node) ∧
      (∀ n ∈ Body.nodes, n ∈ final.Trace.map Event.node) := by
  obtain ⟨depth, hd⟩ := functionNesting_of_rank N rank hrank params Body
  obtain ⟨h1, h2, h3, final, h4⟩ := completes_of_functionNesting N depth Info params Body hd
  exact ⟨h1, h2, h3, depth, final, h4⟩

/-- Witness of C9: a function whose parameter `p` has a normalized bounds tree
holding a bounds-bearing declaration, with the body `use(p);`. -/
theorem prepass_completes_witness :
    ∃ depth final, (∀ fuel, depth ≤ fuel →
        runPrepass exNormalizeNested fuel ⟨[]⟩ [exLen, exP] (useBody exP [(20, 21)]) = some final ∧
        CheckedCAnalysesPrepass exNormalizeNested fuel ⟨[]⟩ [exLen, exP] (useBody exP [(20, 21)]) =
          some final.Info) ∧
      (∀ P ∈ [exLen, exP], Visit.varDecl P ∈ final.Trace.map Event.node) ∧
      (∀ n ∈ (useBody exP [(20, 21)]).nodes, n ∈ final.Trace.map Event.node) :=
  (prepass_completes exNormalizeNested exRank ⟨[]⟩ [exLen, exP] (useBody exP [(20, 21)])
    exNormalizeNested_ranked).2.2.2

/-- Claim C10, evaluated at a failing input: the normalized bounds tree of the
parameter `p` holds a bounds-bearing declaration followed by the reference to
`len`.  The nested `VisitVarDecl` resets `InBoundsExpr` to false, so the
reference to `len`, a node of the bounds tree of `p` whose traversal is still
in progress, is visited with the flag false, and `len` gets no entry. -/
theorem flag_false_inside_bounds_after_nested_declaration :
    exNormalizeNested exP = some exNestedTree ∧
    Visit.declRefExpr exRefLen ∈ exNestedTree.nodes ∧
    ∃ final, runPrepass exNormalizeNested 2 ⟨[]⟩ [exLen, exP] exEmptyBody = some final ∧
      final.Trace.map Event.step =
        [(Visit.varDecl exLen, false), (Visit.varDecl exP, false),
          (Visit.varDecl exInner, true), (Visit.declRefExpr exRefLen, false)] ∧
      final.Info.VarUses.find exLen = none :=
  ⟨rfl, by decide, _, rfl, by decide, by decide⟩

/-- Claim C11: the declaration hook is a no-op on skipped declarations.  For
every store, flag, normalizer and traversal: when `V` is marked invalid, or
has no declared bounds expression, or normalization of its bounds returns no
tree, `VisitVarDecl` returns `true` and leaves `Info` and `InBoundsExpr`
exactly unchanged; and when `V` is invalid or has no bounds expression the
result is the same for every normalizer and every traversal, so neither is
invoked. -/
theorem VisitVarDecl_skipped_is_noop (N : VarDecl → Option Stmt)
    (T : Stmt → PrepassHelper → Option (Bool × PrepassHelper)) (V : VarDecl)
    (self : PrepassHelper)
    (h : V.isInvalidDecl = true ∨ V.hasBoundsExpr = false ∨ N V = none) :
    ∃ self1, VisitVarDecl N T V self = some (true, self1) ∧
      self1.Info = self.Info ∧ self1.InBoundsExpr = self.InBoundsExpr ∧
      ((V.isInvalidDecl = true ∨ V.hasBoundsExpr = false) →
        ∀ (N2 : VarDecl → Option Stmt) (T2 : Stmt → PrepassHelper → Option (Bool × PrepassHelper)),
          VisitVarDecl N2 T2 V self = some (true, self1)) := by
  refine ⟨self.enter (Visit.varDecl V), ?_, rfl, rfl, ?_⟩
  · unfold VisitVarDecl
    rcases h with h | h | h
    · simp [h]
    · simp [h]
    · by_cases hi : V.isInvalidDecl = true
      · simp [hi]
      · by_cases hb : V.hasBoundsExpr = true
        · simp [hi, hb, h]
        · simp [hi, hb]
  · intro h2 N2 T2
    unfold VisitVarDecl
    rcases h2 with h2 | h2
    · simp [h2]
    · simp [h2]

/-- Witness of C11: the hook on an invalid parameter with a bounds expression,
entered with the flag true and a non-empty store. -/
theorem VisitVarDecl_skipped_is_noop_witness :
    ∃ self1, VisitVarDecl exNormalizeInvalid (TraverseStmt exNormalizeInvalid 1) exInvalid
        ⟨⟨[(exP, exOldRef)]⟩, true, []⟩ = some (true, self1) ∧
      self1.Info = ⟨[(exP, exOldRef)]⟩ ∧ self1.InBoundsExpr = true ∧
      ((exInvalid.isInvalidDecl = true ∨ exInvalid.hasBoundsExpr = false) →
        ∀ (N2 : VarDecl → Option Stmt) (T2 : Stmt → PrepassHelper → Option (Bool × PrepassHelper)),
          VisitVarDecl N2 T2 exInvalid ⟨⟨[(exP, exOldRef)]⟩, true, []⟩ = some (true, self1)) :=
  VisitVarDecl_skipped_is_noop exNormalizeInvalid (TraverseStmt exNormalizeInvalid 1) exInvalid
    ⟨⟨[(exP, exOldRef)]⟩, true, []⟩ (Or.inl rfl)

/-- Claim C12: the flag lifecycle.  In every run of the pass that ends in
`final`: the parameter loop, started with the flag false, ends in a state
`self1` with the flag false, from which the body traversal starts; the flag is
false in `final`; and `VisitVarDecl` on a valid declaration with a bounds
expression whose normalization gives a tree ends with the flag false whatever
the flag on entry (for every traversal function). -/
theorem flag_lifecycle (N : VarDecl → Option Stmt) (fuel : Nat) (Info : PrepassInfo)
    (params : List VarDecl) (Body : Stmt) (final : PrepassHelper)
    (h : runPrepass N fuel Info params Body = some final) :
    (∃ self1, visitParams N fuel params ⟨Info, false, []⟩ = some self1 ∧
      self1.InBoundsExpr = false ∧
      ∃ b, TraverseStmt N fuel Body self1 = some (b, final)) ∧
    final.InBoundsExpr = false ∧
    (∀ (T : Stmt → PrepassHelper → Option (Bool × PrepassHelper)) (V : VarDecl) (B : Stmt)
        (self : PrepassHelper) (r : Bool × PrepassHelper),
      V.isInvalidDecl = false → V.hasBoundsExpr = true → N V = some B →
      VisitVarDecl N T V self = some r → r.2.InBoundsExpr = false) := by
  have hp1 : ∃ self1, visitParams N fuel params ⟨Info, false, []⟩ = some self1 ∧
      self1.InBoundsExpr = false ∧ ∃ b, TraverseStmt N fuel Body self1 = some (b, final) := by
    unfold runPrepass at h
    cases hv : visitParams N fuel params ⟨Info, false, []⟩ with
    | none => simp [hv] at h
    | some self1 =>
      simp only [hv] at h
      refine ⟨self1, rfl, ?_, ?_⟩
      · rw [visitParams_eq] at hv
        cases hps : paramSteps N fuel params false with
        | none => simp [hps] at hv
        | some r =>
          simp only [hps, Option.some.injEq] at hv
          rw [← hv]
          rcases paramSteps_flag N fuel params false r hps with h1 | h1 <;> exact h1
      · cases ht : TraverseStmt N fuel Body self1 with
        | none => simp [ht] at h
        | some r =>
          simp only [ht, Option.some.injEq] at h
          exact ⟨r.1, by rw [← h]⟩
  refine ⟨hp1, ?_, ?_⟩
  · obtain ⟨self1, _, hf, b, ht⟩ := hp1
    rw [TraverseStmt_eq, hf] at ht
    cases hs : steps N fuel Body false with
    | none => simp [hs, PrepassHelper.lift] at ht
    | some r =>
      simp only [hs, PrepassHelper.lift, Option.some.injEq, Prod.mk.injEq] at ht
      rw [← ht.2]
      rcases steps_flag N fuel Body false r hs with h1 | h1 <;> exact h1
  · intro T V B self r hv hb hN hr
    unfold VisitVarDecl at hr
    simp only [hv, hb, hN, Bool.false_eq_true, if_false, if_true] at hr
    split at hr
    · simp only [Option.some.injEq] at hr
      rw [← hr]
    · simp at hr

/-- Witness of C12: a function whose parameter `p` has a normalized bounds tree
holding a bounds-bearing declaration, with the body `use(p);`. -/
theorem flag_lifecycle_witness :
    ∃ final, runPrepass exNormalizeNested 2 ⟨[]⟩ [exLen, exP] (useBody exP [(20, 21)]) = some final ∧
      (∃ self1, visitParams exNormalizeNested 2 [exLen, exP] ⟨⟨[]⟩, false, []⟩ = some self1 ∧
        self1.InBoundsExpr = false ∧
        ∃ b, TraverseStmt exNormalizeNested 2 (useBody exP [(20, 21)]) self1 = some (b, final)) ∧
      final.InBoundsExpr = false :=
  ⟨_, rfl,
    (flag_lifecycle exNormalizeNested 2 ⟨[]⟩ [exLen, exP] (useBody exP [(20, 21)]) _ rfl).1,
    (flag_lifecycle exNormalizeNested 2 ⟨[]⟩ [exLen, exP] (useBody exP [(20, 21)]) _ rfl).2.1⟩

/-- Claim C13: soundness of the stored references.  For every run of the pass
and every entry `V -> E` of the final store that is not in the initial store,
the trace has an invocation of the reference hook on the node `E`, `E`
resolves to `V`, `V` is not marked invalid, and `V` carries a bounds
expression or the flag was true at that invocation; at that invocation the
store had no entry for `V`. -/
theorem stored_entries_sound (N : VarDecl → Option Stmt) (fuel : Nat) (Info : PrepassInfo)
    (params : List VarDecl) (Body : Stmt) (final : PrepassHelper) (V : VarDecl)
    (E : DeclRefExpr)
    (h : runPrepass N fuel Info params Body = some final)
    (hE : final.Info.VarUses.find V = some E)
    (hnew : Info.VarUses.find V ≠ some E) :
    ∃ ev ∈ final.Trace, ev.node = Visit.declRefExpr E ∧
      dyn_cast_or_null_VarDecl E.getDecl = some V ∧ V.isInvalidDecl = false ∧
      (V.hasBoundsExpr = true ∨ ev.InBoundsExpr = true) ∧
      ev.VarUses.find V = none := by
  obtain ⟨l, f, _, rfl⟩ := runPrepass_some N fuel Info params Body final h
  simp only [PrepassHelper.after, find_replay, List.nil_append] at hE ⊢
  cases hI : Info.VarUses.find V with
  | some e =>
    rw [hI] at hE hnew
    have hE2 : some e = some E := hE
    exact absurd hE2 hnew
  | none =>
    rw [hI, Option.none_or] at hE
    obtain ⟨l1, x, l2, hl, hx, hnone⟩ := findSome_some_split (offers V) l E hE
    obtain ⟨hnode, hres, hval, hrel⟩ := offers_some V x E hx
    refine ⟨⟨x.1, x.2, replay Info.VarUses l1⟩, ?_, hnode, hres, hval, hrel, ?_⟩
    · rw [hl]; exact mem_annot_split Info.VarUses l1 l2 x
    · show (replay Info.VarUses l1).find V = none
      rw [find_replay, hI, hnone]; rfl

/-- Witness of C13: the entry of `len` added by the pass on the function of the
scenarios, whose initial store holds an entry for `p` only. -/
theorem stored_entries_sound_witness :
    ∃ final, runPrepass exNormalizeRange 1 ⟨[(exP, exOldRef)]⟩ [exLen, exP]
        (useBody exP [(20, 21)]) = some final ∧
      final.Info.VarUses.find exLen = some exRefLen ∧
      ∃ ev ∈ final.Trace, ev.node = Visit.declRefExpr exRefLen ∧
        dyn_cast_or_null_VarDecl exRefLen.getDecl = some exLen ∧ exLen.isInvalidDecl = false ∧
        (exLen.hasBoundsExpr = true ∨ ev.InBoundsExpr = true) ∧
        ev.VarUses.find exLen = none :=
  ⟨_, rfl, by decide,
    stored_entries_sound exNormalizeRange 1 ⟨[(exP, exOldRef)]⟩ [exLen, exP]
      (useBody exP [(20, 21)]) _ exLen exRefLen rfl (by decide) (by decide)⟩

/-- Claim C14: the order of the parameters does not change which variables get
an entry.  For every body, normalizer and initial store and two parameter
lists that are permutations of each other: when the pass on the first list
ends with the store `final1`, the pass on the second list ends too, with a
store `final2` that has an entry for exactly the same variables (the stored
references may differ). -/
theorem prepass_keys_perm (N : VarDecl → Option Stmt) (fuel : Nat) (Info : PrepassInfo)
    (params1 params2 : List VarDecl) (Body : Stmt) (final1 : PrepassInfo)
    (hperm : params1.Perm params2)
    (h : CheckedCAnalysesPrepass N fuel Info params1 Body = some final1) :
    ∃ final2, CheckedCAnalysesPrepass N fuel Info params2 Body = some final2 ∧
      ∀ V, final1.VarUses.find V = none ↔ final2.VarUses.find V = none := by
  cases hp : passSteps N fuel params1 Body with
  | none => simp [CheckedCAnalysesPrepass, runPrepass_eq, hp] at h
  | some r =>
    obtain ⟨l1, f1⟩ := r
    rw [CheckedCAnalysesPrepass_eq N fuel Info params1 Body l1 f1 hp] at h
    simp only [Option.some.injEq] at h
    subst h
    obtain ⟨l2, h2, hpl⟩ := passSteps_perm N fuel params1 params2 Body hperm l1 f1 hp
    refine ⟨_, CheckedCAnalysesPrepass_eq N fuel Info params2 Body l2 f1 h2, ?_⟩
    intro V
    simp only [find_replay_none_iff]
    constructor
    · rintro ⟨hs, hx⟩
      exact ⟨hs, fun x hx2 => hx x (hpl.mem_iff.2 hx2)⟩
    · rintro ⟨hs, hx⟩
      exact ⟨hs, fun x hx1 => hx x (hpl.mem_iff.1 hx1)⟩

/-- Witness of C14: `f(int len, char *p : count(len), char *r : count(len))`
and the same function with `r` first: `len` is the only key of both stores,
with the reference from the bounds of `p` in one and of `r` in the other. -/
theorem prepass_keys_perm_witness :
    [exLen, exP, exR].Perm [exR, exLen, exP] ∧
    CheckedCAnalysesPrepass exNormalizeTwo 1 ⟨[]⟩ [exLen, exP, exR] exEmptyBody =
      some ⟨[(exLen, exRefLen)]⟩ ∧
    CheckedCAnalysesPrepass exNormalizeTwo 1 ⟨[]⟩ [exR, exLen, exP] exEmptyBody =
      some ⟨[(exLen, exRefLenR)]⟩ ∧
    ∃ final2, CheckedCAnalysesPrepass exNormalizeTwo 1 ⟨[]⟩ [exR, exLen, exP] exEmptyBody =
        some final2 ∧
      ∀ V, (⟨[(exLen, exRefLen)]⟩ : PrepassInfo).VarUses.find V = none ↔
        final2.VarUses.find V = none :=
  ⟨by decide, by decide, by decide,
    prepass_keys_perm exNormalizeTwo 1 ⟨[]⟩ [exLen, exP, exR] [exR, exLen, exP] exEmptyBody
      ⟨[(exLen, exRefLen)]⟩ (by decide) (by decide)⟩

end CheckedC
